import Mathlib

/-!
# Verification of the vaultctl core (src/vaultctl/cli.py)

A shallow embedding of the vault-management core: the path classifier
(`is_ignored_root_entry`, `is_mountable_global`, `is_inside_global_vault`),
the global-vault registry (`discover_globals`), the vault materializer
(`ensure_project_vault`, `ensure_global_vault`), the mount engine
(`mount_global_into_project`) and the project branch of `cmd_init`.

The filesystem is modelled as a finite association list from absolute,
normalized paths (lists of name components) to entries (directory, regular
file with content, or symbolic link storing its target path).  `pathlib`
primitives are embedded as follows:

* `Path.exists()` / `Path.is_dir()` follow chains of symbolic links at the
  final component (with fuel bounded by the number of entries, which covers
  every acyclic chain);
* `Path.is_symlink()` inspects the entry itself;
* `Path.resolve()` walks the components left to right, following symbolic
  links where present and keeping nonexistent components literally
  (`strict=False` behaviour);
* `Path.mkdir(parents=True, exist_ok=True)` mirrors `pathlib`'s recursion:
  it succeeds silently on an existing directory (or a link to one), creates
  missing ancestors top-down, and fails on a path occupied by a file or a
  dangling link;
* `Path.write_text` inserts a file entry at the written path;
* `Path.symlink_to` inserts a symlink entry.

Mutating operations return `Except (Err × FS)`: Python exceptions are typed
error values, and both the success and the failure carry the state of the
filesystem when control returns, since a raise does not roll back earlier
mutations.  Config-file parsing, `.gitignore` templating, logging and the
desktop-launcher generation are external collaborators excluded from the
core and are not modelled.
-/

/-- A filesystem path: the list of name components of an absolute,
normalized path (`/a/b` is `["a", "b"]`). -/
abbrev FPath := List String

/-- A directory entry: directory, regular file with its text content, or a
symbolic link storing the target path it was created with. -/
inductive Entry where
  | dir : Entry
  | file : String → Entry
  | symlink : FPath → Entry
deriving DecidableEq, Repr

/-- A filesystem: a finite association list from paths to entries.  Lookup
takes the first match, so prepending shadows older entries. -/
structure FS where
  entries : List (FPath × Entry)
deriving DecidableEq, Repr

def FS.lookup (fs : FS) (p : FPath) : Option Entry :=
  (fs.entries.find? (fun e => e.1 == p)).map (fun e => e.2)

def FS.insertEntry (fs : FS) (p : FPath) (e : Entry) : FS :=
  ⟨(p, e) :: fs.entries⟩

/-- `Path.exists()` with explicit fuel: follows a chain of symbolic links at
the final component; a dangling link does not exist. -/
def FS.existsF (fs : FS) : Nat → FPath → Bool
  | 0, _ => false
  | n + 1, p =>
    match fs.lookup p with
    | some Entry.dir => true
    | some (Entry.file _) => true
    | some (Entry.symlink t) => fs.existsF n t
    | none => false

/-- `Path.exists()`.  The fuel `entries.length + 1` covers every acyclic
chain of symbolic links, since each hop consumes a distinct link entry. -/
def FS.existsP (fs : FS) (p : FPath) : Bool :=
  fs.existsF (fs.entries.length + 1) p

/-- `Path.is_dir()` with explicit fuel (follows links like `stat`). -/
def FS.isDirF (fs : FS) : Nat → FPath → Bool
  | 0, _ => false
  | n + 1, p =>
    match fs.lookup p with
    | some Entry.dir => true
    | some (Entry.file _) => false
    | some (Entry.symlink t) => fs.isDirF n t
    | none => false

/-- `Path.is_dir()`. -/
def FS.isDirP (fs : FS) (p : FPath) : Bool :=
  fs.isDirF (fs.entries.length + 1) p

/-- `Path.is_symlink()` (an `lstat`-style check, no following). -/
def FS.isSymlinkP (fs : FS) (p : FPath) : Bool :=
  match fs.lookup p with
  | some (Entry.symlink _) => true
  | _ => false

/-- The symbolic-link target recorded at `p`, if the entry is a link. -/
def symTarget (fs : FS) (p : FPath) : Option FPath :=
  match fs.lookup p with
  | some (Entry.symlink t) => some t
  | _ => none

/-- One pass of `Path.resolve(strict=False)`: walk the components of `rest`
on top of the already-resolved `acc`, following a symbolic link whenever the
partial path carries one and keeping other components literally. -/
def resolveSteps (fs : FS) : Nat → FPath → FPath → FPath
  | 0, acc, rest => acc ++ rest
  | _ + 1, acc, [] => acc
  | n + 1, acc, c :: rest =>
    match fs.lookup (acc ++ [c]) with
    | some (Entry.symlink t) => resolveSteps fs n (resolveSteps fs n [] t) rest
    | _ => resolveSteps fs n (acc ++ [c]) rest

/-- Fuel for `resolveP`: enough for the walked path plus every link target
stored in the filesystem. -/
def resolveFuel (fs : FS) (p : FPath) : Nat :=
  p.length + 1 + fs.entries.foldr
    (fun e a => a + match e.2 with | Entry.symlink t => t.length + 1 | _ => 0) 0

/-- `Path.resolve(strict=False)`. -/
def FS.resolveP (fs : FS) (p : FPath) : FPath :=
  resolveSteps fs (resolveFuel fs p) [] p

/-- The names of the immediate children of `r` (`Path.iterdir`). -/
def childNames (fs : FS) (r : FPath) : List String :=
  fs.entries.filterMap fun e => if e.1.dropLast == r then e.1.getLast? else none

/-- The typed failures of the core (spec §7), plus `fsError` for raw
filesystem errors (`OSError`/`FileExistsError` from `mkdir`). -/
inductive Err where
  | notFound
  | invalidLocation
  | invalidName
  | structuralViolation
  | alreadyExists
  | fsError
deriving DecidableEq, Repr

/-- The nonempty prefixes of a path, shortest first. -/
def prefixesOf (p : FPath) : List FPath :=
  (List.range p.length).map (fun i => p.take (i + 1))

/-- Walk a list of path prefixes in ascending length order, skipping
existing directories (or links resolving to one), creating missing ones and
failing on a file or a dangling link in the way. -/
def FS.mkdirpAux (fs : FS) : List FPath → Except (Err × FS) FS
  | [] => .ok fs
  | q :: rest =>
    match fs.lookup q with
    | some Entry.dir => fs.mkdirpAux rest
    | some (Entry.file _) => .error (Err.fsError, fs)
    | some (Entry.symlink _) =>
        if fs.isDirP q then fs.mkdirpAux rest else .error (Err.fsError, fs)
    | none => (fs.insertEntry q Entry.dir).mkdirpAux rest

/-- `Path.mkdir(parents=True, exist_ok=True)`, following `pathlib`'s
recursion: an existing directory (or a link resolving to one) is a silent
no-op even before looking at ancestors; otherwise the missing ancestors and
the path itself are created top-down, and a path occupied by a file or a
dangling link raises. -/
def FS.mkdirp (fs : FS) (p : FPath) : Except (Err × FS) FS :=
  match fs.lookup p with
  | some Entry.dir => .ok fs
  | some (Entry.file _) => .error (Err.fsError, fs)
  | some (Entry.symlink _) =>
      if fs.isDirP p then .ok fs else .error (Err.fsError, fs)
  | none => fs.mkdirpAux (prefixesOf p)

/-- The configuration value object (spec §3); paths are pre-expanded and
absolute, as produced by the excluded config loader. -/
structure Config where
  config_version : Nat
  vault_root : FPath
  project_vault_dir : String
  mount_dir : String
  auto_mount : List String
  create_desktop_launcher : Bool
  desktop_launcher_name : String
  editor : String
deriving DecidableEq, Repr

/-- The last path component (`Path.name`; empty for the root). -/
def FPath.name (p : FPath) : String := p.getLast?.getD ""

/-- `str.startswith`, computed structurally on the character lists (the
core-library `String.startsWith` is not kernel-reducible). -/
def strStartsWith (s pre : String) : Bool := pre.data.isPrefixOf s.data

/-- `str.lower`, computed structurally on the character list. -/
def strToLower (s : String) : String := ⟨s.data.map Char.toLower⟩

/-- Python's `<=` on strings: lexicographic comparison by code point. -/
def charListLe : List Char → List Char → Bool
  | [], _ => true
  | _ :: _, [] => false
  | a :: as, b :: bs =>
    if a.toNat < b.toNat then true
    else if b.toNat < a.toNat then false
    else charListLe as bs

/-- The comparison used by `sorted(..., key=lambda kv: kv[0].lower())`. -/
def pyKeyLe (a b : String) : Bool := charListLe (strToLower a).data (strToLower b).data

/-- `is_ignored_root_entry`: hidden or underscore-prefixed names. -/
def is_ignored_root_entry (p : FPath) : Bool :=
  strStartsWith (FPath.name p) "." || strStartsWith (FPath.name p) "_"

/-- `is_mountable_global`: the early-return chain of the source, written as
one boolean conjunction — a real directory, not ignored, not a symlink,
under `vault_root` (`relative_to` succeeding), an immediate child of
`vault_root`, and containing no `mount_dir` entry. -/
def is_mountable_global (cfg : Config) (fs : FS) (p : FPath) : Bool :=
  (fs.existsP p && fs.isDirP p) &&
  !(is_ignored_root_entry p) &&
  !(fs.isSymlinkP p) &&
  cfg.vault_root.isPrefixOf p &&
  (p.dropLast == cfg.vault_root) &&
  !(fs.existsP (p ++ [cfg.mount_dir]))

/-- The pure body of `discover_globals` once `vault_root` exists: the
immediate children passing `is_mountable_global`, keyed by name in
ascending case-insensitive order. -/
def globalsOf (cfg : Config) (fs : FS) : List (String × FPath) :=
  let names := (childNames fs cfg.vault_root).filter
    (fun n => is_mountable_global cfg fs (cfg.vault_root ++ [n]))
  let sorted := List.insertionSort (fun a b => pyKeyLe a b = true) names
  sorted.map (fun n => (n, cfg.vault_root ++ [n]))

/-- `discover_globals`: creates `vault_root` if absent, keeps the immediate
children passing `is_mountable_global`, and returns them keyed by name in
ascending case-insensitive order. -/
def discover_globals (cfg : Config) (fs : FS) :
    Except (Err × FS) (List (String × FPath) × FS) :=
  match fs.mkdirp cfg.vault_root with
  | .error e => .error e
  | .ok fs₁ => .ok (globalsOf cfg fs₁, fs₁)

/-- Name lookup in the discovered mapping (`name in globals_map`,
`globals_map[name]`). -/
def lookupName (m : List (String × FPath)) (n : String) : Option FPath :=
  (m.find? (fun e => e.1 == n)).map (fun e => e.2)

/-- `project_paths`. -/
def project_paths (cfg : Config) (project_root : FPath) : FPath × FPath :=
  let vault := project_root ++ [cfg.project_vault_dir]
  let mount := vault ++ [cfg.mount_dir]
  (vault, mount)

/-- The default project index document. -/
def projectIndexText : String := "# Project Notes\n\n"

/-- `ensure_project_vault`: create the vault and mount directories if
missing and write a default index document only if absent. -/
def ensure_project_vault (cfg : Config) (project_root : FPath) (fs : FS) :
    Except (Err × FS) ((FPath × FPath) × FS) :=
  let (vault, mount) := project_paths cfg project_root
  match fs.mkdirp vault with
  | .error e => .error e
  | .ok fs₁ =>
    match fs₁.mkdirp mount with
    | .error e => .error e
    | .ok fs₂ =>
      let index := vault ++ ["index.md"]
      let fs₃ := if fs₂.existsP index then fs₂
                 else fs₂.insertEntry index (Entry.file projectIndexText)
      .ok ((vault, mount), fs₃)

/-- `ensure_global_vault`: reject reserved names, create the directory,
reject a contained `mount_dir`, and write a default index only if absent. -/
def ensure_global_vault (cfg : Config) (name : String) (fs : FS) :
    Except (Err × FS) (FPath × FS) :=
  if strStartsWith name "_" || strStartsWith name "." then .error (Err.invalidName, fs)
  else
    let target := cfg.vault_root ++ [name]
    match fs.mkdirp target with
    | .error e => .error e
    | .ok fs₁ =>
      if fs₁.existsP (target ++ [cfg.mount_dir]) then
        .error (Err.structuralViolation, fs₁)
      else
        let index := target ++ ["index.md"]
        let fs₂ := if fs₁.existsP index then fs₁
                   else fs₁.insertEntry index (Entry.file ("# " ++ name ++ "\n\n"))
        .ok (target, fs₂)

/-- `is_inside_global_vault`: resolve the path, fail closed if `vault_root`
does not exist, compute the path relative to the resolved `vault_root`, and
re-evaluate the first component through `is_mountable_global`. -/
def is_inside_global_vault (cfg : Config) (fs : FS) (path : FPath) : Bool :=
  let p := fs.resolveP path
  if !(fs.existsP cfg.vault_root) then false
  else
    let rootR := fs.resolveP cfg.vault_root
    if !(rootR.isPrefixOf p) then false
    else
      match p.drop rootR.length with
      | [] => false
      | c :: _ => is_mountable_global cfg fs (cfg.vault_root ++ [c])

/-- `mount_global_into_project`: the mount engine state machine (spec §4.4).
Returns the filesystem on success; the Python function returns `None`. -/
def mount_global_into_project (cfg : Config) (project_root : FPath)
    (name : String) (fs : FS) : Except (Err × FS) FS :=
  if is_inside_global_vault cfg fs project_root then
    .error (Err.invalidLocation, fs)
  else
    match discover_globals cfg fs with
    | .error e => .error e
    | .ok (globalsMap, fs₁) =>
      match lookupName globalsMap name with
      | none => .error (Err.notFound, fs₁)
      | some target =>
        match ensure_project_vault cfg project_root fs₁ with
        | .error e => .error e
        | .ok ((_vault, mountDir), fs₂) =>
          let link := mountDir ++ [name]
          if fs₂.existsP link || fs₂.isSymlinkP link then
            if fs₂.isSymlinkP link && (fs₂.resolveP link == fs₂.resolveP target) then
              .ok fs₂
            else .error (Err.alreadyExists, fs₂)
          else .ok (fs₂.insertEntry link (Entry.symlink target))

/-- The auto-mount loop of `cmd_init`: mount each configured name that is
present in the mapping discovered by `cmd_init`, silently skipping the
rest. -/
def autoMountLoop (cfg : Config) (project_root : FPath)
    (globalsMap : List (String × FPath)) : List String → FS → Except (Err × FS) FS
  | [], fs => .ok fs
  | n :: rest, fs =>
    if (lookupName globalsMap n).isSome then
      match mount_global_into_project cfg project_root n fs with
      | .error e => .error e
      | .ok fs' => autoMountLoop cfg project_root globalsMap rest fs'
    else autoMountLoop cfg project_root globalsMap rest fs

/-- The project branch of `cmd_init`: resolve the argument path, reject a
location inside a global vault, materialize the project vault, discover the
globals and auto-mount the configured names that exist.  The excluded
`.gitignore` and desktop-launcher collaborators are not modelled.  Returns
the vault path it reports. -/
def cmd_init (cfg : Config) (path : FPath) (fs : FS) :
    Except (Err × FS) (FPath × FS) :=
  let project_root := fs.resolveP path
  if is_inside_global_vault cfg fs project_root then
    .error (Err.invalidLocation, fs)
  else
    match ensure_project_vault cfg project_root fs with
    | .error e => .error e
    | .ok ((vault, _), fs₁) =>
      match discover_globals cfg fs₁ with
      | .error e => .error e
      | .ok (globalsMap, fs₂) =>
        match autoMountLoop cfg project_root globalsMap cfg.auto_mount fs₂ with
        | .error e => .error e
        | .ok fs₃ => .ok (vault, fs₃)

/-- The error of a result, if any. -/
def errOf {α : Type} (r : Except (Err × FS) α) : Option Err :=
  match r with
  | .error (e, _) => some e
  | .ok _ => none

/-- The filesystem carried by a mount result (success or failure). -/
def mstate (r : Except (Err × FS) FS) : FS :=
  match r with
  | .ok s => s
  | .error (_, s) => s

/-- The filesystem carried by a `cmd_init` result (success or failure). -/
def istate (r : Except (Err × FS) (FPath × FS)) : FS :=
  match r with
  | .ok (_, s) => s
  | .error (_, s) => s

/-! ## Basic filesystem lemmas -/

theorem FS.lookup_insert (fs : FS) (q : FPath) (e : Entry) :
    (fs.insertEntry q e).lookup q = some e := by
  simp [FS.lookup, FS.insertEntry, List.find?]

theorem FS.lookup_insert_ne (fs : FS) (q : FPath) (e : Entry) (p : FPath)
    (h : p ≠ q) : (fs.insertEntry q e).lookup p = fs.lookup p := by
  have : (q == p) = false := by
    simp only [beq_eq_false_iff_ne]
    exact fun hqp => h hqp.symm
  simp [FS.lookup, FS.insertEntry, List.find?, this]

theorem FS.exists_entry_of_lookup (fs : FS) (p : FPath) (e : Entry)
    (h : fs.lookup p = some e) : (p, e) ∈ fs.entries := by
  simp only [FS.lookup, Option.map_eq_some'] at h
  obtain ⟨⟨p', e'⟩, hfind, he⟩ := h
  have hmem := List.mem_of_find?_eq_some hfind
  have hp := List.find?_some hfind
  simp only [beq_iff_eq] at hp
  subst hp
  subst he
  exact hmem

theorem FS.lookup_isSome_of_mem (fs : FS) (p : FPath) (e : Entry)
    (h : (p, e) ∈ fs.entries) : (fs.lookup p).isSome = true := by
  simp only [FS.lookup, Option.isSome_map']
  rw [List.find?_isSome]
  exact ⟨(p, e), h, by simp⟩

/-! ## Direct evaluation of the stat-style predicates -/

theorem FS.existsP_of_lookup_dir (fs : FS) (p : FPath)
    (h : fs.lookup p = some Entry.dir) : fs.existsP p = true := by
  simp [FS.existsP, FS.existsF, h]

theorem FS.existsP_of_lookup_file (fs : FS) (p : FPath) (c : String)
    (h : fs.lookup p = some (Entry.file c)) : fs.existsP p = true := by
  simp [FS.existsP, FS.existsF, h]

theorem FS.existsF_false_of_lookup_none (fs : FS) (p : FPath) (n : Nat)
    (h : fs.lookup p = none) : fs.existsF n p = false := by
  cases n with
  | zero => rfl
  | succ n => simp [FS.existsF, h]

theorem FS.existsP_false_of_lookup_none (fs : FS) (p : FPath)
    (h : fs.lookup p = none) : fs.existsP p = false :=
  fs.existsF_false_of_lookup_none p _ h

theorem FS.isDirP_of_lookup_dir (fs : FS) (p : FPath)
    (h : fs.lookup p = some Entry.dir) : fs.isDirP p = true := by
  simp [FS.isDirP, FS.isDirF, h]

theorem FS.isDirF_false_of_lookup_file (fs : FS) (p : FPath) (c : String) (n : Nat)
    (h : fs.lookup p = some (Entry.file c)) : fs.isDirF n p = false := by
  cases n with
  | zero => rfl
  | succ n => simp [FS.isDirF, h]

theorem FS.isSymlinkP_false_of_lookup_dir (fs : FS) (p : FPath)
    (h : fs.lookup p = some Entry.dir) : fs.isSymlinkP p = false := by
  simp [FS.isSymlinkP, h]

theorem symTarget_eq_none_of_not_symlink (fs : FS) (p : FPath)
    (h : ∀ t, fs.lookup p ≠ some (Entry.symlink t)) : symTarget fs p = none := by
  unfold symTarget
  cases he : fs.lookup p with
  | none => rfl
  | some e =>
    cases e with
    | dir => rfl
    | file c => rfl
    | symlink t => exact absurd he (h t)

theorem lookup_not_symlink_of_symTarget_none (fs : FS) (p : FPath)
    (h : symTarget fs p = none) (t : FPath) :
    fs.lookup p ≠ some (Entry.symlink t) := by
  intro hl
  simp [symTarget, hl] at h

/-- If the entry is not a symlink, `existsP` and `isDirP` come straight from
the entry and a classified entry determines the three predicates. -/
theorem FS.lookup_dir_of_flags (fs : FS) (p : FPath)
    (hex : fs.existsP p = true) (hdir : fs.isDirP p = true)
    (hsym : fs.isSymlinkP p = false) : fs.lookup p = some Entry.dir := by
  cases he : fs.lookup p with
  | none => rw [fs.existsP_false_of_lookup_none p he] at hex; exact absurd hex (by simp)
  | some e =>
    cases e with
    | dir => rfl
    | file c =>
      unfold FS.isDirP at hdir
      rw [fs.isDirF_false_of_lookup_file p c _ he] at hdir
      exact absurd hdir (by simp)
    | symlink t => simp [FS.isSymlinkP, he] at hsym

/-! ## Fuel monotonicity and insertion preservation -/

theorem FS.existsF_mono (fs : FS) :
    ∀ (n n' : Nat) (p : FPath), n ≤ n' → fs.existsF n p = true → fs.existsF n' p = true := by
  intro n
  induction n with
  | zero => intro n' p _ h; simp [FS.existsF] at h
  | succ n ih =>
    intro n' p hle h
    obtain ⟨m, rfl⟩ : ∃ m, n' = m + 1 := ⟨n' - 1, by omega⟩
    simp only [FS.existsF] at h ⊢
    cases he : fs.lookup p with
    | none => rw [he] at h; exact h
    | some e =>
      cases e with
      | dir => rfl
      | file c => rfl
      | symlink t =>
        rw [he] at h
        exact ih m t (by omega) h

theorem FS.isDirF_mono (fs : FS) :
    ∀ (n n' : Nat) (p : FPath), n ≤ n' → fs.isDirF n p = true → fs.isDirF n' p = true := by
  intro n
  induction n with
  | zero => intro n' p _ h; simp [FS.isDirF] at h
  | succ n ih =>
    intro n' p hle h
    obtain ⟨m, rfl⟩ : ∃ m, n' = m + 1 := ⟨n' - 1, by omega⟩
    simp only [FS.isDirF] at h ⊢
    cases he : fs.lookup p with
    | none => simp [he] at h
    | some e =>
      cases e with
      | dir => rfl
      | file c => simp [he] at h
      | symlink t =>
        rw [he] at h
        exact ih m t (by omega) h

theorem FS.existsF_of_isDirF (fs : FS) :
    ∀ (n : Nat) (p : FPath), fs.isDirF n p = true → fs.existsF n p = true := by
  intro n
  induction n with
  | zero => intro p h; simp [FS.isDirF] at h
  | succ n ih =>
    intro p h
    simp only [FS.isDirF] at h
    simp only [FS.existsF]
    cases he : fs.lookup p with
    | none => simp [he] at h
    | some e =>
      cases e with
      | dir => rfl
      | file c => simp [he] at h
      | symlink t =>
        rw [he] at h
        exact ih t h

theorem FS.existsP_of_isDirP (fs : FS) (p : FPath) (h : fs.isDirP p = true) :
    fs.existsP p = true :=
  fs.existsF_of_isDirF _ p h

/-- Inserting a fresh entry (at a path with no entry) preserves every
successful existence chain: a chain that evaluates to `true` never consults
a missing path. -/
theorem FS.existsF_insert_none (fs : FS) (q : FPath) (e : Entry)
    (hq : fs.lookup q = none) :
    ∀ (n : Nat) (p : FPath), fs.existsF n p = true →
      (fs.insertEntry q e).existsF n p = true := by
  intro n
  induction n with
  | zero => intro p h; simp [FS.existsF] at h
  | succ n ih =>
    intro p h
    simp only [FS.existsF] at h ⊢
    have hpq : p ≠ q := by
      intro heq
      subst heq
      rw [hq] at h
      simp at h
    rw [fs.lookup_insert_ne q e p hpq]
    cases he : fs.lookup p with
    | none => simp [he] at h
    | some e' =>
      cases e' with
      | dir => rfl
      | file c => rfl
      | symlink t =>
        rw [he] at h
        exact ih t h

theorem FS.isDirF_insert_none (fs : FS) (q : FPath) (e : Entry)
    (hq : fs.lookup q = none) :
    ∀ (n : Nat) (p : FPath), fs.isDirF n p = true →
      (fs.insertEntry q e).isDirF n p = true := by
  intro n
  induction n with
  | zero => intro p h; simp [FS.isDirF] at h
  | succ n ih =>
    intro p h
    simp only [FS.isDirF] at h ⊢
    have hpq : p ≠ q := by
      intro heq
      subst heq
      rw [hq] at h
      simp at h
    rw [fs.lookup_insert_ne q e p hpq]
    cases he : fs.lookup p with
    | none => simp [he] at h
    | some e' =>
      cases e' with
      | dir => rfl
      | file c => simp [he] at h
      | symlink t =>
        rw [he] at h
        exact ih t h

theorem FS.entries_insert_length (fs : FS) (q : FPath) (e : Entry) :
    (fs.insertEntry q e).entries.length = fs.entries.length + 1 := rfl

theorem FS.existsP_insert_none (fs : FS) (q : FPath) (e : Entry)
    (hq : fs.lookup q = none) (p : FPath) (h : fs.existsP p = true) :
    (fs.insertEntry q e).existsP p = true := by
  have h1 := fs.existsF_insert_none q e hq _ p h
  exact (fs.insertEntry q e).existsF_mono _ _ p
    (by rw [fs.entries_insert_length q e]; omega) h1

theorem FS.isDirP_insert_none (fs : FS) (q : FPath) (e : Entry)
    (hq : fs.lookup q = none) (p : FPath) (h : fs.isDirP p = true) :
    (fs.insertEntry q e).isDirP p = true := by
  have h1 := fs.isDirF_insert_none q e hq _ p h
  exact (fs.insertEntry q e).isDirF_mono _ _ p
    (by rw [fs.entries_insert_length q e]; omega) h1

/-! ## Resolution lemmas -/

/-- No symbolic link sits at any nonempty prefix of `p`. -/
def noSymPrefixes (fs : FS) (p : FPath) : Prop :=
  ∀ i, i < p.length → symTarget fs (p.take (i + 1)) = none

instance (fs : FS) (p : FPath) : Decidable (noSymPrefixes fs p) := by
  unfold noSymPrefixes
  infer_instance

/-- No symbolic-link entry lies at `r` or anywhere below it. -/
def symFreeUnder (fs : FS) (r : FPath) : Prop :=
  ∀ q t, fs.lookup q = some (Entry.symlink t) → ¬ (r <+: q)

/-- Walking components whose partial paths carry no symbolic link leaves the
path unchanged. -/
theorem resolveSteps_no_sym (fs : FS) :
    ∀ (p : FPath) (n : Nat) (acc : FPath),
      (∀ q, q ≠ [] → q <+: p → symTarget fs (acc ++ q) = none) →
      p.length ≤ n → resolveSteps fs n acc p = acc ++ p := by
  intro p
  induction p with
  | nil =>
    intro n acc _ _
    cases n with
    | zero => rfl
    | succ n => simp [resolveSteps]
  | cons c rest ih =>
    intro n acc hs hn
    obtain ⟨m, rfl⟩ : ∃ m, n = m + 1 := ⟨n - 1, by simp at hn; omega⟩
    simp only [resolveSteps]
    have hc : symTarget fs (acc ++ [c]) = none :=
      hs [c] (by simp) ⟨rest, rfl⟩
    have hnotsym : ∀ t, fs.lookup (acc ++ [c]) ≠ some (Entry.symlink t) :=
      lookup_not_symlink_of_symTarget_none fs _ hc
    have hrw : resolveSteps fs m (acc ++ [c]) rest = (acc ++ [c]) ++ rest := by
      apply ih m (acc ++ [c])
      · intro q hq hqp
        have := hs (c :: q) (by simp) (by
          obtain ⟨t, ht⟩ := hqp
          exact ⟨t, by simp [ht]⟩)
        simpa using this
      · simp at hn; omega
    cases he : fs.lookup (acc ++ [c]) with
    | none => rw [hrw]; simp
    | some e' =>
      cases e' with
      | dir => rw [hrw]; simp
      | file s => rw [hrw]; simp
      | symlink t => exact absurd he (hnotsym t)

/-- A path whose strict prefixes are link-free resolves to itself when its
own entry is not a link. -/
theorem resolveP_no_sym (fs : FS) (p : FPath) (h : noSymPrefixes fs p) :
    fs.resolveP p = p := by
  unfold FS.resolveP
  have := resolveSteps_no_sym fs p (resolveFuel fs p) []
    (fun q hq hqp => by
      obtain ⟨i, hi, rfl⟩ : ∃ i, i < p.length ∧ q = p.take (i + 1) := by
        refine ⟨q.length - 1, ?_, ?_⟩
        · have hlen := hqp.length_le
          have : 0 < q.length := List.length_pos.mpr hq
          omega
        · have h0 : 0 < q.length := List.length_pos.mpr hq
          have hq1 : q.length - 1 + 1 = q.length := by omega
          rw [hq1]
          exact List.prefix_iff_eq_take.mp hqp
      simpa using h i hi)
    (by unfold resolveFuel; omega)
  simpa using this

theorem noSymPrefixes_forall (fs : FS) (p : FPath) (h : noSymPrefixes fs p) :
    ∀ q, q ≠ [] → q <+: p → symTarget fs q = none := by
  intro q hq hqp
  obtain ⟨i, hi, rfl⟩ : ∃ i, i < p.length ∧ q = p.take (i + 1) := by
    refine ⟨q.length - 1, ?_, ?_⟩
    · have hlen := hqp.length_le
      have : 0 < q.length := List.length_pos.mpr hq
      omega
    · have h0 : 0 < q.length := List.length_pos.mpr hq
      have hq1 : q.length - 1 + 1 = q.length := by omega
      rw [hq1]
      exact List.prefix_iff_eq_take.mp hqp
  exact h i hi

theorem noSymPrefixes_of_forall (fs : FS) (p : FPath)
    (h : ∀ q, q ≠ [] → q <+: p → symTarget fs q = none) : noSymPrefixes fs p := by
  intro i hi
  apply h
  · have : (p.take (i + 1)).length = i + 1 := by
      rw [List.length_take]
      omega
    intro hnil
    rw [hnil] at this
    simp at this
  · exact List.take_prefix _ _

theorem lookup_of_symTarget_some (fs : FS) (p t : FPath)
    (h : symTarget fs p = some t) : fs.lookup p = some (Entry.symlink t) := by
  unfold symTarget at h
  cases he : fs.lookup p with
  | none => rw [he] at h; simp at h
  | some e =>
    cases e with
    | dir => rw [he] at h; simp at h
    | file c => rw [he] at h; simp at h
    | symlink t' =>
      rw [he] at h
      simp only [Option.some.injEq] at h
      rw [h]

theorem foldr_fuel_ge (entries : List (FPath × Entry)) (q t : FPath)
    (h : (q, Entry.symlink t) ∈ entries) :
    t.length + 1 ≤ entries.foldr
      (fun e a => a + match e.2 with | Entry.symlink t => t.length + 1 | _ => 0) 0 := by
  induction entries with
  | nil => simp at h
  | cons hd tl ih =>
    simp only [List.foldr_cons]
    rcases List.mem_cons.mp h with heq | hmem
    · subst heq
      exact Nat.le_add_left _ _
    · exact le_trans (ih hmem) (Nat.le_add_right _ _)

/-- Resolving a path whose strict prefixes are link-free and whose final
entry is a link to a link-free target yields that target. -/
theorem resolveSteps_last_sym (fs : FS) :
    ∀ (p : FPath) (n : Nat) (acc : FPath) (t : FPath),
      (∀ q, q ≠ [] → q <+: p → q ≠ p → symTarget fs (acc ++ q) = none) →
      symTarget fs (acc ++ p) = some t →
      (∀ q, q ≠ [] → q <+: t → symTarget fs q = none) →
      p ≠ [] →
      p.length + t.length ≤ n →
      resolveSteps fs n acc p = t := by
  intro p
  induction p with
  | nil => intro n acc t _ _ _ hne _; exact absurd rfl hne
  | cons c rest ih =>
    intro n acc t hstrict hlast ht _ hn
    obtain ⟨m, rfl⟩ : ∃ m, n = m + 1 := ⟨n - 1, by simp at hn; omega⟩
    simp only [resolveSteps]
    by_cases hrest : rest = []
    · subst hrest
      have hlk : fs.lookup (acc ++ [c]) = some (Entry.symlink t) := by
        apply lookup_of_symTarget_some
        simpa using hlast
      rw [hlk]
      have hres : resolveSteps fs m [] t = t := by
        have := resolveSteps_no_sym fs t m []
          (fun q hq hqp => by simpa using ht q hq hqp)
          (by simp at hn; omega)
        simpa using this
      show resolveSteps fs m (resolveSteps fs m [] t) [] = t
      rw [hres]
      cases m with
      | zero => simp [resolveSteps]
      | succ m => simp [resolveSteps]
    · have hc : symTarget fs (acc ++ [c]) = none := by
        apply hstrict [c] (by simp) ⟨rest, rfl⟩
        intro habs
        injection habs with h1 h2
        exact hrest h2.symm
      have hnotsym := lookup_not_symlink_of_symTarget_none fs _ hc
      have hrec : resolveSteps fs m (acc ++ [c]) rest = t := by
        apply ih m (acc ++ [c]) t
        · intro q hq hqp hqne
          have := hstrict (c :: q) (by simp)
            (by obtain ⟨s, hs⟩ := hqp; exact ⟨s, by simp [hs]⟩)
            (by intro habs; injection habs with _ h2; exact hqne h2)
          simpa using this
        · have : acc ++ [c] ++ rest = acc ++ (c :: rest) := by simp
          rw [this]
          exact hlast
        · exact ht
        · exact hrest
        · simp at hn; omega
      cases he : fs.lookup (acc ++ [c]) with
      | none => exact hrec
      | some e' =>
        cases e' with
        | dir => exact hrec
        | file s => exact hrec
        | symlink t' => exact absurd he (hnotsym t')

/-- `Path.resolve` of a path that is a symbolic link with link-free prefixes
and a link-free target: the stored target. -/
theorem resolveP_last_sym (fs : FS) (p t : FPath)
    (hstrict : ∀ q, q ≠ [] → q <+: p → q ≠ p → symTarget fs q = none)
    (hlast : symTarget fs p = some t)
    (ht : ∀ q, q ≠ [] → q <+: t → symTarget fs q = none)
    (hne : p ≠ []) :
    fs.resolveP p = t := by
  unfold FS.resolveP
  apply resolveSteps_last_sym fs p _ [] t
    (fun q hq hqp hqne => by simpa using hstrict q hq hqp hqne)
    (by simpa using hlast) ht hne
  have hlk := lookup_of_symTarget_some fs p t hlast
  have hmem := fs.exists_entry_of_lookup p _ hlk
  have := foldr_fuel_ge fs.entries p t hmem
  unfold resolveFuel
  omega

/-! ## mkdir lemmas -/

theorem mem_prefixesOf (q p : FPath) : q ∈ prefixesOf p ↔ q ≠ [] ∧ q <+: p := by
  unfold prefixesOf
  simp only [List.mem_map, List.mem_range]
  constructor
  · rintro ⟨i, hi, rfl⟩
    constructor
    · intro hnil
      have := congrArg List.length hnil
      simp only [List.length_take, List.length_nil] at this
      omega
    · exact List.take_prefix _ _
  · rintro ⟨hne, hpre⟩
    refine ⟨q.length - 1, ?_, ?_⟩
    · have hlen := hpre.length_le
      have : 0 < q.length := List.length_pos.mpr hne
      omega
    · have h0 : 0 < q.length := List.length_pos.mpr hne
      have hq1 : q.length - 1 + 1 = q.length := by omega
      rw [hq1]
      exact (List.prefix_iff_eq_take.mp hpre).symm

theorem FS.mkdirpAux_lookup (l : List FPath) :
    ∀ (fs fs' : FS), fs.mkdirpAux l = .ok fs' →
    ∀ p, fs'.lookup p = fs.lookup p ∨
      (fs.lookup p = none ∧ fs'.lookup p = some Entry.dir ∧ p ∈ l) := by
  induction l with
  | nil =>
    intro fs fs' h p
    simp only [FS.mkdirpAux] at h
    injection h with h
    rw [h]
    exact Or.inl rfl
  | cons q rest ih =>
    intro fs fs' h p
    simp only [FS.mkdirpAux] at h
    cases he : fs.lookup q with
    | some e =>
      cases e with
      | dir =>
        rw [he] at h
        rcases ih fs fs' h p with h1 | ⟨h1, h2, h3⟩
        · exact Or.inl h1
        · exact Or.inr ⟨h1, h2, List.mem_cons_of_mem _ h3⟩
      | file c => rw [he] at h; exact absurd h (by simp)
      | symlink t =>
        rw [he] at h
        by_cases hd : fs.isDirP q
        · rw [if_pos hd] at h
          rcases ih fs fs' h p with h1 | ⟨h1, h2, h3⟩
          · exact Or.inl h1
          · exact Or.inr ⟨h1, h2, List.mem_cons_of_mem _ h3⟩
        · rw [if_neg hd] at h; exact absurd h (by simp)
    | none =>
      rw [he] at h
      rcases ih _ fs' h p with h1 | ⟨h1, h2, h3⟩
      · by_cases hpq : p = q
        · subst hpq
          rw [fs.lookup_insert p Entry.dir] at h1
          exact Or.inr ⟨he, h1, List.mem_cons_self _ _⟩
        · rw [fs.lookup_insert_ne q Entry.dir p hpq] at h1
          exact Or.inl h1
      · by_cases hpq : p = q
        · subst hpq
          rw [fs.lookup_insert p Entry.dir] at h1
          exact absurd h1 (by simp)
        · rw [fs.lookup_insert_ne q Entry.dir p hpq] at h1
          exact Or.inr ⟨h1, h2, List.mem_cons_of_mem _ h3⟩

theorem FS.mkdirpAux_exists_preserve (l : List FPath) :
    ∀ (fs fs' : FS), fs.mkdirpAux l = .ok fs' →
    ∀ p, fs.existsP p = true → fs'.existsP p = true := by
  induction l with
  | nil =>
    intro fs fs' h p hp
    simp only [FS.mkdirpAux] at h
    injection h with h
    rw [h] at hp
    exact hp
  | cons q rest ih =>
    intro fs fs' h p hp
    simp only [FS.mkdirpAux] at h
    cases he : fs.lookup q with
    | some e =>
      cases e with
      | dir => rw [he] at h; exact ih fs fs' h p hp
      | file c => rw [he] at h; exact absurd h (by simp)
      | symlink t =>
        rw [he] at h
        by_cases hd : fs.isDirP q
        · rw [if_pos hd] at h; exact ih fs fs' h p hp
        · rw [if_neg hd] at h; exact absurd h (by simp)
    | none =>
      rw [he] at h
      exact ih _ fs' h p (fs.existsP_insert_none q Entry.dir he p hp)

theorem FS.mkdirpAux_isdir_preserve (l : List FPath) :
    ∀ (fs fs' : FS), fs.mkdirpAux l = .ok fs' →
    ∀ p, fs.isDirP p = true → fs'.isDirP p = true := by
  induction l with
  | nil =>
    intro fs fs' h p hp
    simp only [FS.mkdirpAux] at h
    injection h with h
    rw [h] at hp
    exact hp
  | cons q rest ih =>
    intro fs fs' h p hp
    simp only [FS.mkdirpAux] at h
    cases he : fs.lookup q with
    | some e =>
      cases e with
      | dir => rw [he] at h; exact ih fs fs' h p hp
      | file c => rw [he] at h; exact absurd h (by simp)
      | symlink t =>
        rw [he] at h
        by_cases hd : fs.isDirP q
        · rw [if_pos hd] at h; exact ih fs fs' h p hp
        · rw [if_neg hd] at h; exact absurd h (by simp)
    | none =>
      rw [he] at h
      exact ih _ fs' h p (fs.isDirP_insert_none q Entry.dir he p hp)

theorem FS.mkdirpAux_postdir (l : List FPath) :
    ∀ (fs fs' : FS), fs.mkdirpAux l = .ok fs' →
    ∀ q ∈ l, fs'.lookup q = some Entry.dir ∨
      (∃ t, fs'.lookup q = some (Entry.symlink t) ∧ fs'.isDirP q = true) := by
  induction l with
  | nil => intro fs fs' _ q hq; simp at hq
  | cons a rest ih =>
    intro fs fs' h q hq
    simp only [FS.mkdirpAux] at h
    rcases List.mem_cons.mp hq with rfl | hmem
    · cases he : fs.lookup q with
      | some e =>
        cases e with
        | dir =>
          rw [he] at h
          rcases fs.mkdirpAux_lookup rest fs' h q with h1 | ⟨h1, _, _⟩
          · rw [h1, he]; exact Or.inl rfl
          · rw [h1] at he; exact absurd he (by simp)
        | file c => rw [he] at h; exact absurd h (by simp)
        | symlink t =>
          rw [he] at h
          by_cases hd : fs.isDirP q
          · rw [if_pos hd] at h
            refine Or.inr ⟨t, ?_, ?_⟩
            · rcases fs.mkdirpAux_lookup rest fs' h q with h1 | ⟨h1, _, _⟩
              · rw [h1, he]
              · rw [h1] at he; exact absurd he (by simp)
            · exact fs.mkdirpAux_isdir_preserve rest fs' h q hd
          · rw [if_neg hd] at h; exact absurd h (by simp)
      | none =>
        rw [he] at h
        rcases (fs.insertEntry q Entry.dir).mkdirpAux_lookup rest fs' h q with h1 | ⟨h1, _, _⟩
        · rw [h1, fs.lookup_insert q Entry.dir]; exact Or.inl rfl
        · rw [fs.lookup_insert q Entry.dir] at h1; exact absurd h1 (by simp)
    · cases he : fs.lookup a with
      | some e =>
        cases e with
        | dir => rw [he] at h; exact ih fs fs' h q hmem
        | file c => rw [he] at h; exact absurd h (by simp)
        | symlink t =>
          rw [he] at h
          by_cases hd : fs.isDirP a
          · rw [if_pos hd] at h; exact ih fs fs' h q hmem
          · rw [if_neg hd] at h; exact absurd h (by simp)
      | none =>
        rw [he] at h
        exact ih _ fs' h q hmem

theorem FS.mkdirpAux_err (l : List FPath) :
    ∀ (fs : FS) (e : Err × FS), fs.mkdirpAux l = .error e → e.1 = Err.fsError := by
  induction l with
  | nil => intro fs e h; simp [FS.mkdirpAux] at h
  | cons a rest ih =>
    intro fs e h
    simp only [FS.mkdirpAux] at h
    cases he : fs.lookup a with
    | some en =>
      cases en with
      | dir => rw [he] at h; exact ih fs e h
      | file c =>
        rw [he] at h
        injection h with h
        rw [← h]
      | symlink t =>
        rw [he] at h
        by_cases hd : fs.isDirP a
        · rw [if_pos hd] at h; exact ih fs e h
        · rw [if_neg hd] at h
          injection h with h
          rw [← h]
    | none =>
      rw [he] at h
      exact ih _ e h

theorem FS.mkdirp_lookup (fs fs' : FS) (p : FPath) (h : fs.mkdirp p = .ok fs') :
    ∀ q, fs'.lookup q = fs.lookup q ∨
      (fs.lookup q = none ∧ fs'.lookup q = some Entry.dir ∧ q ≠ [] ∧ q <+: p) := by
  intro q
  unfold FS.mkdirp at h
  cases he : fs.lookup p with
  | some e =>
    cases e with
    | dir => rw [he] at h; injection h with h; rw [h]; exact Or.inl rfl
    | file c => rw [he] at h; exact absurd h (by simp)
    | symlink t =>
      rw [he] at h
      by_cases hd : fs.isDirP p
      · rw [if_pos hd] at h; injection h with h; rw [h]; exact Or.inl rfl
      · rw [if_neg hd] at h; exact absurd h (by simp)
  | none =>
    rw [he] at h
    rcases fs.mkdirpAux_lookup (prefixesOf p) fs' h q with h1 | ⟨h1, h2, h3⟩
    · exact Or.inl h1
    · obtain ⟨hne, hpre⟩ := (mem_prefixesOf q p).mp h3
      exact Or.inr ⟨h1, h2, hne, hpre⟩

theorem FS.mkdirp_exists_preserve (fs fs' : FS) (p : FPath) (h : fs.mkdirp p = .ok fs')
    (q : FPath) (hq : fs.existsP q = true) : fs'.existsP q = true := by
  unfold FS.mkdirp at h
  cases he : fs.lookup p with
  | some e =>
    cases e with
    | dir => rw [he] at h; injection h with h; rw [← h]; exact hq
    | file c => rw [he] at h; exact absurd h (by simp)
    | symlink t =>
      rw [he] at h
      by_cases hd : fs.isDirP p
      · rw [if_pos hd] at h; injection h with h; rw [← h]; exact hq
      · rw [if_neg hd] at h; exact absurd h (by simp)
  | none =>
    rw [he] at h
    exact fs.mkdirpAux_exists_preserve (prefixesOf p) fs' h q hq

theorem FS.mkdirp_isdir_preserve (fs fs' : FS) (p : FPath) (h : fs.mkdirp p = .ok fs')
    (q : FPath) (hq : fs.isDirP q = true) : fs'.isDirP q = true := by
  unfold FS.mkdirp at h
  cases he : fs.lookup p with
  | some e =>
    cases e with
    | dir => rw [he] at h; injection h with h; rw [← h]; exact hq
    | file c => rw [he] at h; exact absurd h (by simp)
    | symlink t =>
      rw [he] at h
      by_cases hd : fs.isDirP p
      · rw [if_pos hd] at h; injection h with h; rw [← h]; exact hq
      · rw [if_neg hd] at h; exact absurd h (by simp)
  | none =>
    rw [he] at h
    exact fs.mkdirpAux_isdir_preserve (prefixesOf p) fs' h q hq

theorem FS.mkdirp_postdir (fs fs' : FS) (p : FPath) (h : fs.mkdirp p = .ok fs')
    (hne : p ≠ []) :
    fs'.lookup p = some Entry.dir ∨
      (∃ t, fs'.lookup p = some (Entry.symlink t) ∧ fs'.isDirP p = true) := by
  unfold FS.mkdirp at h
  cases he : fs.lookup p with
  | some e =>
    cases e with
    | dir => rw [he] at h; injection h with h; rw [← h]; exact Or.inl he
    | file c => rw [he] at h; exact absurd h (by simp)
    | symlink t =>
      rw [he] at h
      by_cases hd : fs.isDirP p
      · rw [if_pos hd] at h; injection h with h; rw [← h]; exact Or.inr ⟨t, he, hd⟩
      · rw [if_neg hd] at h; exact absurd h (by simp)
  | none =>
    rw [he] at h
    apply fs.mkdirpAux_postdir (prefixesOf p) fs' h p
    exact (mem_prefixesOf p p).mpr ⟨hne, List.prefix_refl p⟩

theorem FS.mkdirp_exists_self (fs fs' : FS) (p : FPath) (h : fs.mkdirp p = .ok fs')
    (hne : p ≠ []) : fs'.existsP p = true := by
  rcases fs.mkdirp_postdir fs' p h hne with h1 | ⟨t, h1, h2⟩
  · exact fs'.existsP_of_lookup_dir p h1
  · exact fs'.existsP_of_isDirP p h2

theorem FS.mkdirp_err (fs : FS) (p : FPath) (e : Err × FS)
    (h : fs.mkdirp p = .error e) : e.1 = Err.fsError := by
  unfold FS.mkdirp at h
  cases he : fs.lookup p with
  | some en =>
    cases en with
    | dir => rw [he] at h; exact absurd h (by simp)
    | file c => rw [he] at h; injection h with h; rw [← h]
    | symlink t =>
      rw [he] at h
      by_cases hd : fs.isDirP p
      · rw [if_pos hd] at h; exact absurd h (by simp)
      · rw [if_neg hd] at h; injection h with h; rw [← h]
  | none =>
    rw [he] at h
    exact FS.mkdirpAux_err (prefixesOf p) fs e h

theorem FS.mkdirp_noop_dir (fs : FS) (p : FPath) (h : fs.lookup p = some Entry.dir) :
    fs.mkdirp p = .ok fs := by
  unfold FS.mkdirp
  rw [h]

theorem FS.mkdirp_noop_symdir (fs : FS) (p : FPath) (t : FPath)
    (h : fs.lookup p = some (Entry.symlink t)) (hd : fs.isDirP p = true) :
    fs.mkdirp p = .ok fs := by
  unfold FS.mkdirp
  rw [h, if_pos hd]

/-! ## Registry lemmas -/

theorem lookup_some_of_existsP (fs : FS) (p : FPath) (h : fs.existsP p = true) :
    ∃ e, fs.lookup p = some e := by
  unfold FS.existsP FS.existsF at h
  cases he : fs.lookup p with
  | none => rw [he] at h; simp at h
  | some e => exact ⟨e, rfl⟩

theorem mem_childNames (fs : FS) (r : FPath) (n : String) :
    n ∈ childNames fs r ↔ ∃ e, (r ++ [n], e) ∈ fs.entries := by
  unfold childNames
  rw [List.mem_filterMap]
  constructor
  · rintro ⟨⟨q, e⟩, hmem, hf⟩
    simp only at hf
    by_cases hdl : q.dropLast = r
    · rw [if_pos (by simpa using hdl)] at hf
      have hq : q = r ++ [n] := by
        have := List.dropLast_append_getLast? n hf
        rw [hdl] at this
        exact this.symm
      exact ⟨e, hq ▸ hmem⟩
    · rw [if_neg (by simpa using hdl)] at hf
      exact absurd hf (by simp)
  · rintro ⟨e, hmem⟩
    refine ⟨(r ++ [n], e), hmem, ?_⟩
    simp only
    rw [if_pos (by simp), List.getLast?_concat]

theorem mem_globalsOf (cfg : Config) (fs : FS) (n : String) (p : FPath) :
    (n, p) ∈ globalsOf cfg fs ↔
      p = cfg.vault_root ++ [n] ∧
        is_mountable_global cfg fs (cfg.vault_root ++ [n]) = true := by
  unfold globalsOf
  simp only [List.mem_map]
  constructor
  · rintro ⟨n', hn', heq⟩
    injection heq with h1 h2
    subst h1
    rw [List.mem_insertionSort, List.mem_filter] at hn'
    exact ⟨h2.symm, hn'.2⟩
  · rintro ⟨hp, hmount⟩
    refine ⟨n, ?_, by rw [hp]⟩
    rw [List.mem_insertionSort, List.mem_filter]
    refine ⟨?_, hmount⟩
    rw [mem_childNames]
    have hex : fs.existsP (cfg.vault_root ++ [n]) = true := by
      unfold is_mountable_global at hmount
      simp only [Bool.and_eq_true] at hmount
      exact hmount.1.1.1.1.1.1
    obtain ⟨e, he⟩ := lookup_some_of_existsP fs _ hex
    exact ⟨e, fs.exists_entry_of_lookup _ e he⟩

theorem globalsOf_shape (cfg : Config) (fs : FS) (n : String) (p : FPath)
    (h : (n, p) ∈ globalsOf cfg fs) : p = cfg.vault_root ++ [n] :=
  ((mem_globalsOf cfg fs n p).mp h).1

theorem lookupName_eq_some_imp (m : List (String × FPath)) (n : String) (p : FPath)
    (h : lookupName m n = some p) : (n, p) ∈ m := by
  unfold lookupName at h
  simp only [Option.map_eq_some'] at h
  obtain ⟨⟨n', p'⟩, hfind, hp⟩ := h
  have hmem := List.mem_of_find?_eq_some hfind
  have hn := List.find?_some hfind
  simp only [beq_iff_eq] at hn
  subst hn
  subst hp
  exact hmem

theorem lookupName_isSome_of_mem (m : List (String × FPath)) (n : String) (p : FPath)
    (h : (n, p) ∈ m) : (lookupName m n).isSome = true := by
  unfold lookupName
  simp only [Option.isSome_map']
  rw [List.find?_isSome]
  exact ⟨(n, p), h, by simp⟩

theorem lookupName_globalsOf (cfg : Config) (fs : FS) (n : String)
    (hmount : is_mountable_global cfg fs (cfg.vault_root ++ [n]) = true) :
    lookupName (globalsOf cfg fs) n = some (cfg.vault_root ++ [n]) := by
  have hmem : (n, cfg.vault_root ++ [n]) ∈ globalsOf cfg fs :=
    (mem_globalsOf cfg fs n _).mpr ⟨rfl, hmount⟩
  have hsome := lookupName_isSome_of_mem _ n _ hmem
  cases hv : lookupName (globalsOf cfg fs) n with
  | none => rw [hv] at hsome; exact absurd hsome (by simp)
  | some p =>
    have := globalsOf_shape cfg fs n p (lookupName_eq_some_imp _ n p hv)
    rw [this]

/-! ## The sort order -/

theorem charListLe_total : ∀ (a b : List Char),
    charListLe a b = true ∨ charListLe b a = true := by
  intro a
  induction a with
  | nil => intro b; left; rfl
  | cons x xs ih =>
    intro b
    cases b with
    | nil => right; rfl
    | cons y ys =>
      simp only [charListLe]
      by_cases h1 : x.toNat < y.toNat
      · left; rw [if_pos h1]
      · by_cases h2 : y.toNat < x.toNat
        · right; rw [if_pos h2]
        · rcases ih ys with h | h
          · left; rw [if_neg h1, if_neg h2]; exact h
          · right; rw [if_neg h2, if_neg h1]; exact h

theorem charListLe_trans : ∀ (a b c : List Char),
    charListLe a b = true → charListLe b c = true → charListLe a c = true := by
  intro a
  induction a with
  | nil => intro b c _ _; rfl
  | cons x xs ih =>
    intro b c hab hbc
    cases b with
    | nil => simp [charListLe] at hab
    | cons y ys =>
      cases c with
      | nil => simp [charListLe] at hbc
      | cons z zs =>
        simp only [charListLe] at hab hbc ⊢
        by_cases hxy : x.toNat < y.toNat
        · by_cases hyz : y.toNat < z.toNat
          · rw [if_pos (by omega : x.toNat < z.toNat)]
          · rw [if_neg hyz] at hbc
            by_cases hzy : z.toNat < y.toNat
            · rw [if_pos hzy] at hbc; exact absurd hbc (by simp)
            · rw [if_pos (by omega : x.toNat < z.toNat)]
        · rw [if_neg hxy] at hab
          by_cases hyx : y.toNat < x.toNat
          · rw [if_pos hyx] at hab; exact absurd hab (by simp)
          · rw [if_neg hyx] at hab
            by_cases hyz : y.toNat < z.toNat
            · rw [if_pos (by omega : x.toNat < z.toNat)]
            · rw [if_neg hyz] at hbc
              by_cases hzy : z.toNat < y.toNat
              · rw [if_pos hzy] at hbc; exact absurd hbc (by simp)
              · rw [if_neg hzy] at hbc
                rw [if_neg (by omega : ¬ x.toNat < z.toNat),
                    if_neg (by omega : ¬ z.toNat < x.toNat)]
                exact ih ys zs hab hbc

instance : IsTotal String (fun a b => pyKeyLe a b = true) :=
  ⟨fun _ _ => charListLe_total _ _⟩

instance : IsTrans String (fun a b => pyKeyLe a b = true) :=
  ⟨fun _ _ _ hab hbc => charListLe_trans _ _ _ hab hbc⟩

theorem pairwise_globalsOf (cfg : Config) (fs : FS) :
    ((globalsOf cfg fs).map Prod.fst).Pairwise (fun a b => pyKeyLe a b = true) := by
  unfold globalsOf
  rw [List.map_map]
  have hid : (Prod.fst ∘ fun n => (n, cfg.vault_root ++ [n])) = id := rfl
  rw [hid, List.map_id]
  exact List.sorted_insertionSort (fun a b => pyKeyLe a b = true) _

/-- Equality of results is decidable, so witnesses can discharge
result-shaped hypotheses on concrete inputs by evaluation. -/
instance {ε α : Type} [DecidableEq ε] [DecidableEq α] : DecidableEq (Except ε α) :=
  fun a b =>
  match a, b with
  | .ok x, .ok y =>
    if h : x = y then isTrue (by rw [h]) else isFalse (fun hc => h (by injection hc))
  | .ok _, .error _ => isFalse (fun hc => Except.noConfusion hc)
  | .error _, .ok _ => isFalse (fun hc => Except.noConfusion hc)
  | .error x, .error y =>
    if h : x = y then isTrue (by rw [h]) else isFalse (fun hc => h (by injection hc))

/-! ## Claim theorems -/

/-- Boolean characterization of `is_inside_global_vault`, shared by several
claim theorems. -/
theorem is_inside_global_vault_eq (cfg : Config) (fs : FS) (p : FPath) :
    is_inside_global_vault cfg fs p =
      (fs.existsP cfg.vault_root &&
       (fs.resolveP cfg.vault_root).isPrefixOf (fs.resolveP p) &&
       (match (fs.resolveP p).drop (fs.resolveP cfg.vault_root).length with
        | [] => false
        | c :: _ => is_mountable_global cfg fs (cfg.vault_root ++ [c]))) := by
  unfold is_inside_global_vault
  simp only []
  cases hex : fs.existsP cfg.vault_root
  · simp
  · simp only [Bool.not_true, Bool.false_eq_true, if_false, Bool.true_and]
    cases hpre : (fs.resolveP cfg.vault_root).isPrefixOf (fs.resolveP p)
    · simp
    · simp

/-- C2.  `is_inside_global_vault` returns false when `vault_root` does not
exist; returns false when the resolved path is not under the resolved
`vault_root`; and otherwise returns true exactly when the first path
component under `vault_root` is a valid global vault per
`is_mountable_global`.  The Lean embedding is a total function, so the
operation never raises. -/
theorem is_inside_global_vault_spec (cfg : Config) (fs : FS) (p : FPath) :
    (fs.existsP cfg.vault_root = false → is_inside_global_vault cfg fs p = false) ∧
    (¬ ((fs.resolveP cfg.vault_root) <+: (fs.resolveP p)) →
      is_inside_global_vault cfg fs p = false) ∧
    (is_inside_global_vault cfg fs p = true ↔
      fs.existsP cfg.vault_root = true ∧
      ((fs.resolveP cfg.vault_root) <+: (fs.resolveP p)) ∧
      ∃ c rest, (fs.resolveP p).drop (fs.resolveP cfg.vault_root).length = c :: rest ∧
        is_mountable_global cfg fs (cfg.vault_root ++ [c]) = true) := by
  refine ⟨?_, ?_, ?_⟩
  · intro h
    rw [is_inside_global_vault_eq, h]
    simp
  · intro h
    have hb : (fs.resolveP cfg.vault_root).isPrefixOf (fs.resolveP p) = false := by
      cases hb : (fs.resolveP cfg.vault_root).isPrefixOf (fs.resolveP p)
      · rfl
      · exact absurd (List.isPrefixOf_iff_prefix.mp hb) h
    rw [is_inside_global_vault_eq, hb]
    simp
  · rw [is_inside_global_vault_eq]
    constructor
    · intro h
      simp only [Bool.and_eq_true] at h
      obtain ⟨⟨hex, hpre⟩, hm⟩ := h
      refine ⟨hex, List.isPrefixOf_iff_prefix.mp hpre, ?_⟩
      cases hd : (fs.resolveP p).drop (fs.resolveP cfg.vault_root).length with
      | nil => rw [hd] at hm; exact absurd hm (by simp)
      | cons c rest =>
        rw [hd] at hm
        exact ⟨c, rest, rfl, hm⟩
    · rintro ⟨hex, hpre, c, rest, hd, hm⟩
      rw [hex, hd]
      simp only [Bool.true_and]
      rw [List.isPrefixOf_iff_prefix.mpr hpre]
      simp only [Bool.true_and]
      exact hm

/-- Witness for C2 at a concrete input: a path outside an existing
`vault_root` is classified as not inside any global vault. -/
theorem is_inside_global_vault_spec_witness :
    is_inside_global_vault
      { config_version := 1, vault_root := ["v"], project_vault_dir := ".vault",
        mount_dir := "_m", auto_mount := [], create_desktop_launcher := false,
        desktop_launcher_name := "", editor := "obsidian" }
      ⟨[(["v"], Entry.dir), (["v", "g"], Entry.dir)]⟩ ["home", "u", "proj"] = false :=
  (is_inside_global_vault_spec _ _ _).2.1 (by decide)

/-- C3.  `is_mountable_global` is the conjunction: exists and is a
directory, not hidden/private-prefixed, not a symlink, an immediate child of
`vault_root` by parent equality (the `relative_to` containment test is
subsumed by parent equality), and no `mount_dir` entry inside.  On a path
with no entry it returns false (the embedding is total, so nothing is
raised for non-existence). -/
theorem is_mountable_global_spec (cfg : Config) (fs : FS) (p : FPath) :
    (is_mountable_global cfg fs p =
      (fs.existsP p && fs.isDirP p && !(is_ignored_root_entry p) &&
       !(fs.isSymlinkP p) && (p.dropLast == cfg.vault_root) &&
       !(fs.existsP (p ++ [cfg.mount_dir])))) ∧
    (fs.lookup p = none → is_mountable_global cfg fs p = false) := by
  constructor
  · unfold is_mountable_global
    cases hpe : (p.dropLast == cfg.vault_root)
    · simp
    · have hpre : cfg.vault_root.isPrefixOf p = true := by
        rw [List.isPrefixOf_iff_prefix]
        have heq : p.dropLast = cfg.vault_root := by simpa using hpe
        by_cases hnil : p = []
        · subst hnil
          simp at heq
          rw [← heq]
        · rw [← heq]
          conv_rhs => rw [← List.dropLast_append_getLast hnil]
          exact List.prefix_append _ _
      rw [hpre]
      simp
  · intro h
    unfold is_mountable_global
    rw [fs.existsP_false_of_lookup_none p h]
    simp

/-- Witness for C3 at a concrete input: a non-existent path is not a
mountable global vault and no exception is modelled. -/
theorem is_mountable_global_spec_witness :
    is_mountable_global
      { config_version := 1, vault_root := ["v"], project_vault_dir := ".vault",
        mount_dir := "_m", auto_mount := [], create_desktop_launcher := false,
        desktop_launcher_name := "", editor := "obsidian" }
      ⟨[(["v"], Entry.dir)]⟩ ["v", "nothing"] = false :=
  (is_mountable_global_spec _ _ _).2 (by decide)

/-- Concrete configuration for the C1 counterexample: `vault_root = /v`,
holding one global vault `/v/g`; no auto-mounts. -/
def cfgC1 : Config :=
  { config_version := 1, vault_root := ["v"], project_vault_dir := ".vault",
    mount_dir := "_m", auto_mount := [], create_desktop_launcher := false,
    desktop_launcher_name := "", editor := "obsidian" }

/-- Concrete filesystem for the C1 counterexample. -/
def fsC1 : FS := ⟨[(["v"], Entry.dir), (["v", "g"], Entry.dir)]⟩

/-- Counterexample to C1.  Running project initialization with the project
root equal to `vault_root` itself does NOT fail with `InvalidLocation`: the
relative path of `vault_root` to itself has no components, so
`is_inside_global_vault` returns false, and `cmd_init` goes on to create a
project vault directory `/v/.vault` inside `vault_root`. -/
theorem cmd_init_at_vault_root_succeeds :
    errOf (cmd_init cfgC1 ["v"] fsC1) = none ∧
    (istate (cmd_init cfgC1 ["v"] fsC1)).lookup ["v", ".vault"] = some Entry.dir := by
  constructor
  · decide
  · decide

/-- C1 amended.  Initialization and mounting fail with `InvalidLocation`
before any filesystem mutation exactly when the (resolved) project root's
first path component under `vault_root` is a mountable global vault — i.e.
when `is_inside_global_vault` holds, which covers roots equal to or nested
inside a valid global vault.  A root equal to `vault_root`, or inside
`vault_root` but not inside a valid global vault, is not rejected (see the
counterexample). -/
theorem reject_inside_mountable_global (cfg : Config) (fs : FS)
    (path pr : FPath) (name : String) :
    (is_inside_global_vault cfg fs (fs.resolveP path) = true →
      cmd_init cfg path fs = .error (Err.invalidLocation, fs)) ∧
    (is_inside_global_vault cfg fs pr = true →
      mount_global_into_project cfg pr name fs = .error (Err.invalidLocation, fs)) := by
  constructor
  · intro h
    unfold cmd_init
    rw [if_pos h]
  · intro h
    unfold mount_global_into_project
    rw [if_pos h]

/-- Witness for the amended C1 at a concrete input: a project root inside
the global vault `/v/g` is rejected with `InvalidLocation` by both
operations, leaving the filesystem unchanged. -/
theorem reject_inside_mountable_global_witness :
    cmd_init cfgC1 ["v", "g", "proj"] fsC1 = .error (Err.invalidLocation, fsC1) ∧
    mount_global_into_project cfgC1 ["v", "g", "proj"] "g" fsC1 =
      .error (Err.invalidLocation, fsC1) := by
  have h := reject_inside_mountable_global cfgC1 fsC1 ["v", "g", "proj"]
    ["v", "g", "proj"] "g"
  exact ⟨h.1 (by decide), h.2 (by decide)⟩

/-- C9.  Any entry named `mount_dir` inside a candidate directory — a
regular file included, because the source tests `(p / mount_dir).exists()`
rather than `is_dir()` — makes `is_mountable_global` false and excludes the
directory from `discover_globals`. -/
theorem mount_dir_file_blocks_discovery (cfg : Config) (fs : FS) (p : FPath)
    (c : String) (h : fs.lookup (p ++ [cfg.mount_dir]) = some (Entry.file c)) :
    is_mountable_global cfg fs p = false ∧
    (∀ m fs' n, discover_globals cfg fs = .ok (m, fs') → (n, p) ∉ m) := by
  have hmb : ∀ (fsx : FS), fsx.lookup (p ++ [cfg.mount_dir]) = some (Entry.file c) →
      is_mountable_global cfg fsx p = false := by
    intro fsx hx
    unfold is_mountable_global
    rw [fsx.existsP_of_lookup_file _ c hx]
    simp
  refine ⟨hmb fs h, ?_⟩
  intro m fs' n hdisc hmem
  unfold discover_globals at hdisc
  cases hmk : fs.mkdirp cfg.vault_root with
  | error e => rw [hmk] at hdisc; exact absurd hdisc (by simp)
  | ok fs1 =>
    rw [hmk] at hdisc
    simp only [Except.ok.injEq, Prod.mk.injEq] at hdisc
    obtain ⟨hm, hfs⟩ := hdisc
    subst hfs
    subst hm
    obtain ⟨hp, hmt⟩ := (mem_globalsOf cfg fs1 n p).mp hmem
    subst hp
    have hlk : fs1.lookup (cfg.vault_root ++ [n] ++ [cfg.mount_dir]) = some (Entry.file c) := by
      rcases fs.mkdirp_lookup fs1 _ hmk (cfg.vault_root ++ [n] ++ [cfg.mount_dir])
        with h1 | ⟨h1, _, _⟩
      · rw [h1]; exact h
      · rw [h1] at h; exact absurd h (by simp)
    have := hmb fs1 hlk
    rw [this] at hmt
    exact absurd hmt (by simp)

/-- Witness for C9 at a concrete input: a regular file named `_m` inside
`/v/bad` makes `/v/bad` unmountable. -/
theorem mount_dir_file_blocks_discovery_witness :
    is_mountable_global cfgC1 ⟨[(["v"], Entry.dir), (["v", "bad"], Entry.dir),
      (["v", "bad", "_m"], Entry.file "junk")]⟩ ["v", "bad"] = false :=
  (mount_dir_file_blocks_discovery cfgC1 _ ["v", "bad"] "junk" (by decide)).1

/-- C4.  For a nonempty `vault_root` path, a successful `discover_globals`
leaves `vault_root` existing (creating it if absent), returns exactly the
immediate children satisfying `is_mountable_global` keyed by name, sorted in
ascending case-insensitive order; `_scratch` (a private-marker name) and any
directory holding a `mount_dir` entry are excluded. -/
theorem discover_globals_spec (cfg : Config) (fs : FS)
    (m : List (String × FPath)) (fs' : FS)
    (hroot : cfg.vault_root ≠ [])
    (h : discover_globals cfg fs = .ok (m, fs')) :
    fs'.existsP cfg.vault_root = true ∧
    (∀ n p, (n, p) ∈ m ↔ p = cfg.vault_root ++ [n] ∧
        is_mountable_global cfg fs' (cfg.vault_root ++ [n]) = true) ∧
    (m.map Prod.fst).Pairwise (fun a b => pyKeyLe a b = true) ∧
    (∀ p, ("_scratch", p) ∉ m) ∧
    (∀ n p, fs'.existsP (cfg.vault_root ++ [n] ++ [cfg.mount_dir]) = true →
      (n, p) ∉ m) := by
  unfold discover_globals at h
  cases hmk : fs.mkdirp cfg.vault_root with
  | error e => rw [hmk] at h; exact absurd h (by simp)
  | ok fs1 =>
    rw [hmk] at h
    simp only [Except.ok.injEq, Prod.mk.injEq] at h
    obtain ⟨hm, hfs⟩ := h
    subst hfs
    subst hm
    refine ⟨fs.mkdirp_exists_self fs1 _ hmk hroot,
      fun n p => mem_globalsOf cfg fs1 n p, pairwise_globalsOf cfg fs1, ?_, ?_⟩
    · intro p hmem
      have hmt := ((mem_globalsOf cfg fs1 _ p).mp hmem).2
      unfold is_mountable_global at hmt
      simp only [Bool.and_eq_true, Bool.not_eq_true'] at hmt
      have hig := hmt.1.1.1.1.2
      have : is_ignored_root_entry (cfg.vault_root ++ ["_scratch"]) = true := by
        unfold is_ignored_root_entry FPath.name
        rw [List.getLast?_concat]
        simp only [Option.getD_some]
        decide
      rw [this] at hig
      exact absurd hig (by simp)
    · intro n p hex hmem
      have hmt := ((mem_globalsOf cfg fs1 n p).mp hmem).2
      unfold is_mountable_global at hmt
      simp only [Bool.and_eq_true, Bool.not_eq_true'] at hmt
      have hmd := hmt.2
      rw [hex] at hmd
      exact absurd hmd (by simp)

/-- Witness for C4 at a concrete input. -/
theorem discover_globals_spec_witness :
    fsC1.existsP cfgC1.vault_root = true ∧
    (∀ p, ("_scratch", p) ∉ ([("g", ["v", "g"])] : List (String × FPath))) := by
  have h := discover_globals_spec cfgC1 fsC1 [("g", ["v", "g"])] fsC1
    (by decide) (by decide)
  exact ⟨h.1, h.2.2.2.1⟩

/-- Concrete state for the C6 counterexample: a project vault whose mount
directory holds a junk file at the link path, with the index document
missing. -/
def fsC6 : FS := ⟨[(["v"], Entry.dir), (["v", "g"], Entry.dir), (["p"], Entry.dir),
  (["p", ".vault"], Entry.dir), (["p", ".vault", "_m"], Entry.dir),
  (["p", ".vault", "_m", "g"], Entry.file "junk")]⟩

/-- Counterexample to C6.  With a regular file occupying the link path but
the project index document missing, `mount_global_into_project` does fail
with `AlreadyExists`, but the filesystem is NOT unchanged: the call first
runs the step-3 materialization, which writes the default index document
before the conflict is detected. -/
theorem mount_conflict_mutates_missing_index :
    errOf (mount_global_into_project cfgC1 ["p"] "g" fsC6) = some Err.alreadyExists ∧
    mstate (mount_global_into_project cfgC1 ["p"] "g" fsC6) ≠ fsC6 ∧
    (mstate (mount_global_into_project cfgC1 ["p"] "g" fsC6)).lookup
      ["p", ".vault", "index.md"] = some (Entry.file projectIndexText) := by
  refine ⟨by decide, by decide, by decide⟩

/-- C6 amended.  If the computed mount link path is occupied by anything
other than a symlink resolving to the target global vault, the mount fails
with `AlreadyExists`; when the project vault is already fully materialized
(vault directory, mount directory and index document present), the
filesystem is returned unchanged.  (When materialization is incomplete the
failing call may still perform the idempotent step-3 creation first — see
the counterexample.) -/
theorem mount_conflict_fails_cleanly (cfg : Config) (fs : FS) (proj : FPath)
    (name : String) (target : FPath)
    (hin : is_inside_global_vault cfg fs proj = false)
    (hroot : fs.lookup cfg.vault_root = some Entry.dir)
    (hname : lookupName (globalsOf cfg fs) name = some target)
    (hv : fs.lookup (proj ++ [cfg.project_vault_dir]) = some Entry.dir)
    (hm : fs.lookup (proj ++ [cfg.project_vault_dir] ++ [cfg.mount_dir]) = some Entry.dir)
    (hidx : fs.existsP (proj ++ [cfg.project_vault_dir] ++ ["index.md"]) = true)
    (hocc : (fs.existsP (proj ++ [cfg.project_vault_dir] ++ [cfg.mount_dir] ++ [name]) ||
             fs.isSymlinkP (proj ++ [cfg.project_vault_dir] ++ [cfg.mount_dir] ++ [name])) = true)
    (hbad : (fs.isSymlinkP (proj ++ [cfg.project_vault_dir] ++ [cfg.mount_dir] ++ [name]) &&
             (fs.resolveP (proj ++ [cfg.project_vault_dir] ++ [cfg.mount_dir] ++ [name]) ==
              fs.resolveP target)) = false) :
    mount_global_into_project cfg proj name fs = .error (Err.alreadyExists, fs) := by
  have hdisc : discover_globals cfg fs = .ok (globalsOf cfg fs, fs) := by
    unfold discover_globals
    rw [fs.mkdirp_noop_dir _ hroot]
  have hens : ensure_project_vault cfg proj fs =
      .ok ((proj ++ [cfg.project_vault_dir],
            proj ++ [cfg.project_vault_dir] ++ [cfg.mount_dir]), fs) := by
    unfold ensure_project_vault project_paths
    simp only []
    rw [fs.mkdirp_noop_dir _ hv]
    simp only []
    rw [fs.mkdirp_noop_dir _ hm]
    simp only []
    rw [if_pos hidx]
  unfold mount_global_into_project
  rw [if_neg (by rw [hin]; simp : ¬ (is_inside_global_vault cfg fs proj = true))]
  rw [hdisc]
  simp only []
  rw [hname]
  simp only []
  rw [hens]
  simp only []
  rw [if_pos (by rw [hocc] : (fs.existsP (proj ++ [cfg.project_vault_dir] ++
    [cfg.mount_dir] ++ [name]) || fs.isSymlinkP (proj ++ [cfg.project_vault_dir] ++
    [cfg.mount_dir] ++ [name])) = true)]
  rw [if_neg (by rw [hbad]; simp : ¬ ((fs.isSymlinkP (proj ++ [cfg.project_vault_dir] ++
    [cfg.mount_dir] ++ [name]) && (fs.resolveP (proj ++ [cfg.project_vault_dir] ++
    [cfg.mount_dir] ++ [name]) == fs.resolveP target)) = true))]

/-- Witness for the amended C6 at a concrete input: a fully materialized
project vault with a junk file at the link path fails with `AlreadyExists`
and leaves the state untouched. -/
theorem mount_conflict_fails_cleanly_witness :
    mount_global_into_project cfgC1 ["p"] "g"
      ⟨[(["v"], Entry.dir), (["v", "g"], Entry.dir), (["p"], Entry.dir),
        (["p", ".vault"], Entry.dir), (["p", ".vault", "index.md"], Entry.file "x"),
        (["p", ".vault", "_m"], Entry.dir),
        (["p", ".vault", "_m", "g"], Entry.file "junk")]⟩ =
      .error (Err.alreadyExists,
        ⟨[(["v"], Entry.dir), (["v", "g"], Entry.dir), (["p"], Entry.dir),
          (["p", ".vault"], Entry.dir), (["p", ".vault", "index.md"], Entry.file "x"),
          (["p", ".vault", "_m"], Entry.dir),
          (["p", ".vault", "_m", "g"], Entry.file "junk")]⟩) :=
  mount_conflict_fails_cleanly cfgC1 _ ["p"] "g" ["v", "g"]
    (by decide) (by decide) (by decide) (by decide) (by decide) (by decide)
    (by decide) (by decide)

/-- C8.  `ensure_project_vault` is idempotent: when a first call succeeds
(and no symbolic link sits at the vault or mount directory paths, so that
the directories are real), a second call on the resulting state returns the
identical `(vault, mount)` pair and the state unchanged; and a pre-existing
index document is never overwritten, so its content survives the call. -/
theorem ensure_project_vault_idempotent (cfg : Config) (proj : FPath) (fs fs₁ : FS)
    (pr : FPath × FPath)
    (hv : ∀ t, fs.lookup (proj ++ [cfg.project_vault_dir]) ≠ some (Entry.symlink t))
    (hmnt : ∀ t, fs.lookup (proj ++ [cfg.project_vault_dir] ++ [cfg.mount_dir]) ≠
      some (Entry.symlink t))
    (h : ensure_project_vault cfg proj fs = .ok (pr, fs₁)) :
    ensure_project_vault cfg proj fs₁ = .ok (pr, fs₁) ∧
    (∀ c, fs.lookup (proj ++ [cfg.project_vault_dir] ++ ["index.md"]) =
        some (Entry.file c) →
      fs₁.lookup (proj ++ [cfg.project_vault_dir] ++ ["index.md"]) =
        some (Entry.file c)) := by
  unfold ensure_project_vault project_paths at h
  simp only [] at h
  cases hmkA : fs.mkdirp (proj ++ [cfg.project_vault_dir]) with
  | error e => rw [hmkA] at h; exact absurd h (by simp)
  | ok fsA =>
    rw [hmkA] at h
    simp only [] at h
    cases hmkB : fsA.mkdirp (proj ++ [cfg.project_vault_dir] ++ [cfg.mount_dir]) with
    | error e => rw [hmkB] at h; exact absurd h (by simp)
    | ok fsB =>
      rw [hmkB] at h
      simp only [Except.ok.injEq, Prod.mk.injEq] at h
      obtain ⟨hpr, hfs1⟩ := h
      have hvne : proj ++ [cfg.project_vault_dir] ≠ [] := by simp
      have hmne : proj ++ [cfg.project_vault_dir] ++ [cfg.mount_dir] ≠ [] := by simp
      -- (1) the vault directory is a real directory after the first mkdir
      have h1 : fsA.lookup (proj ++ [cfg.project_vault_dir]) = some Entry.dir := by
        rcases fs.mkdirp_postdir fsA _ hmkA hvne with hd | ⟨t, hs, _⟩
        · exact hd
        · rcases fs.mkdirp_lookup fsA _ hmkA (proj ++ [cfg.project_vault_dir])
            with hl | ⟨_, hl, _, _⟩
          · rw [hl] at hs; exact absurd hs (hv t)
          · rw [hl] at hs; exact absurd hs (by simp)
      -- (2) still a directory after the second mkdir
      have h2 : fsB.lookup (proj ++ [cfg.project_vault_dir]) = some Entry.dir := by
        rcases fsA.mkdirp_lookup fsB _ hmkB (proj ++ [cfg.project_vault_dir])
          with hl | ⟨_, hl, _, _⟩
        · rw [hl]; exact h1
        · exact hl
      -- (3) the mount directory is a real directory
      have h3 : fsB.lookup (proj ++ [cfg.project_vault_dir] ++ [cfg.mount_dir]) =
          some Entry.dir := by
        rcases fsA.mkdirp_postdir fsB _ hmkB hmne with hd | ⟨t, hs, _⟩
        · exact hd
        · rcases fsA.mkdirp_lookup fsB _ hmkB
            (proj ++ [cfg.project_vault_dir] ++ [cfg.mount_dir]) with hl | ⟨_, hl, _, _⟩
          · rw [hl] at hs
            rcases fs.mkdirp_lookup fsA _ hmkA
              (proj ++ [cfg.project_vault_dir] ++ [cfg.mount_dir]) with hl2 | ⟨_, hl2, _, _⟩
            · rw [hl2] at hs; exact absurd hs (hmnt t)
            · rw [hl2] at hs; exact absurd hs (by simp)
          · rw [hl] at hs; exact absurd hs (by simp)
      -- the final state
      by_cases hidx : fsB.existsP (proj ++ [cfg.project_vault_dir] ++ ["index.md"]) = true
      · rw [if_pos hidx] at hfs1
        subst hfs1
        constructor
        · unfold ensure_project_vault project_paths
          simp only []
          rw [FS.mkdirp_noop_dir _ _ h2]
          simp only []
          rw [FS.mkdirp_noop_dir _ _ h3]
          simp only []
          rw [if_pos hidx, ← hpr]
        · intro c hc
          rcases fs.mkdirp_lookup fsA _ hmkA
            (proj ++ [cfg.project_vault_dir] ++ ["index.md"]) with hl | ⟨hl, _, _⟩
          · rcases fsA.mkdirp_lookup fsB _ hmkB
              (proj ++ [cfg.project_vault_dir] ++ ["index.md"]) with hl2 | ⟨hl2, _, _⟩
            · rw [hl2, hl]; exact hc
            · rw [hl] at hl2; rw [hc] at hl2; exact absurd hl2 (by simp)
          · rw [hc] at hl; exact absurd hl (by simp)
      · rw [if_neg hidx] at hfs1
        have hexB : fsB.existsP (proj ++ [cfg.project_vault_dir] ++ ["index.md"]) = false := by
          cases hx : fsB.existsP (proj ++ [cfg.project_vault_dir] ++ ["index.md"])
          · rfl
          · exact absurd hx hidx
        -- the written index path differs from both directory paths
        have hnev : proj ++ [cfg.project_vault_dir] ++ ["index.md"] ≠
            proj ++ [cfg.project_vault_dir] := by
          intro heq
          have := congrArg List.length heq
          simp at this
        have hnem : proj ++ [cfg.project_vault_dir] ++ ["index.md"] ≠
            proj ++ [cfg.project_vault_dir] ++ [cfg.mount_dir] := by
          intro heq
          rw [heq, fsB.existsP_of_lookup_dir _ h3] at hexB
          exact absurd hexB (by simp)
        subst hfs1
        constructor
        · unfold ensure_project_vault project_paths
          simp only []
          rw [FS.mkdirp_noop_dir _ _ (by
            rw [fsB.lookup_insert_ne _ _ _ (fun he => hnev he.symm)]
            exact h2)]
          simp only []
          rw [FS.mkdirp_noop_dir _ _ (by
            rw [fsB.lookup_insert_ne _ _ _ (fun he => hnem he.symm)]
            exact h3)]
          simp only []
          rw [if_pos (by
            apply FS.existsP_of_lookup_file _ _ projectIndexText
            exact fsB.lookup_insert _ _), ← hpr]
        · intro c hc
          -- a pre-existing index file contradicts the write branch
          have hlA : fsA.lookup (proj ++ [cfg.project_vault_dir] ++ ["index.md"]) =
              some (Entry.file c) := by
            rcases fs.mkdirp_lookup fsA _ hmkA
              (proj ++ [cfg.project_vault_dir] ++ ["index.md"]) with hl | ⟨hl, _, _⟩
            · rw [hl]; exact hc
            · rw [hc] at hl; exact absurd hl (by simp)
          have hlB : fsB.lookup (proj ++ [cfg.project_vault_dir] ++ ["index.md"]) =
              some (Entry.file c) := by
            rcases fsA.mkdirp_lookup fsB _ hmkB
              (proj ++ [cfg.project_vault_dir] ++ ["index.md"]) with hl | ⟨hl, _, _⟩
            · rw [hl]; exact hlA
            · rw [hlA] at hl; exact absurd hl (by simp)
          rw [fsB.existsP_of_lookup_file _ c hlB] at hexB
          exact absurd hexB (by simp)

/-- Concrete state for the C7 counterexample: a regular file sits at
`vault_root/g`. -/
def fsC7 : FS := ⟨[(["v"], Entry.dir), (["v", "g"], Entry.file "junk")]⟩

/-- Counterexample to C7.  For the valid name `g` (no reserved prefix) with
no `mount_dir` inside the target, `ensure_global_vault` neither succeeds nor
fails with `InvalidName`/`StructuralViolation`: a pre-existing regular file
at `vault_root/g` makes the `mkdir` step raise a raw filesystem error, so
the claimed trichotomy does not hold and no path is returned. -/
theorem ensure_global_vault_on_file_unlisted_failure :
    (strStartsWith "g" "_" || strStartsWith "g" ".") = false ∧
    fsC7.existsP ["v", "g", "_m"] = false ∧
    errOf (ensure_global_vault cfgC1 "g" fsC7) = some Err.fsError := by
  refine ⟨by decide, by decide, by decide⟩

/-- C7 amended.  `ensure_global_vault` fails with `InvalidName` on a
reserved prefix without touching the filesystem; fails with
`StructuralViolation`, without modifying anything, when the pre-existing
target directory holds a `mount_dir` entry; and in a well-formed state —
the target absent or a real directory, `vault_root` a directory or wholly
absent together with the target, `mount_dir` not named `index.md` — it
returns the target path and a subsequent `discover_globals` mapping
contains the name. -/
theorem ensure_global_vault_spec_amended (cfg : Config) (fs : FS) (name : String) :
    ((strStartsWith name "_" || strStartsWith name ".") = true →
      ensure_global_vault cfg name fs = .error (Err.invalidName, fs)) ∧
    ((strStartsWith name "_" || strStartsWith name ".") = false →
      fs.lookup (cfg.vault_root ++ [name]) = some Entry.dir →
      fs.existsP (cfg.vault_root ++ [name] ++ [cfg.mount_dir]) = true →
      ensure_global_vault cfg name fs = .error (Err.structuralViolation, fs)) ∧
    (∀ fs₁, (strStartsWith name "_" || strStartsWith name ".") = false →
      cfg.vault_root ≠ [] →
      cfg.mount_dir ≠ "index.md" →
      (fs.lookup cfg.vault_root = some Entry.dir ∨
        (fs.lookup cfg.vault_root = none ∧ fs.lookup (cfg.vault_root ++ [name]) = none)) →
      (fs.lookup (cfg.vault_root ++ [name]) = none ∨
        fs.lookup (cfg.vault_root ++ [name]) = some Entry.dir) →
      fs.mkdirp (cfg.vault_root ++ [name]) = .ok fs₁ →
      fs₁.lookup (cfg.vault_root ++ [name] ++ [cfg.mount_dir]) = none →
      ∃ fs₂, ensure_global_vault cfg name fs = .ok (cfg.vault_root ++ [name], fs₂) ∧
        ∃ m fs₃, discover_globals cfg fs₂ = .ok (m, fs₃) ∧
          (name, cfg.vault_root ++ [name]) ∈ m) := by
  refine ⟨?_, ?_, ?_⟩
  · intro h
    unfold ensure_global_vault
    rw [if_pos h]
  · intro hname hdir hex
    unfold ensure_global_vault
    rw [if_neg (by rw [hname]; simp : ¬ ((strStartsWith name "_" ||
      strStartsWith name ".") = true))]
    simp only []
    rw [FS.mkdirp_noop_dir _ _ hdir]
    simp only []
    rw [if_pos hex]
  · intro fs₁ hname hrootne hmdname hroot htl hmkd hmd1
    -- the target is a real directory after the mkdir
    have hT1 : fs₁.lookup (cfg.vault_root ++ [name]) = some Entry.dir := by
      rcases htl with hl | hl
      · unfold FS.mkdirp at hmkd
        rw [hl] at hmkd
        have hpd := FS.mkdirpAux_postdir (prefixesOf (cfg.vault_root ++ [name])) fs fs₁
          hmkd (cfg.vault_root ++ [name])
          ((mem_prefixesOf _ _).mpr ⟨by simp, List.prefix_refl _⟩)
        rcases hpd with hd | ⟨t, hs, _⟩
        · exact hd
        · rcases FS.mkdirpAux_lookup (prefixesOf (cfg.vault_root ++ [name])) fs fs₁
            hmkd (cfg.vault_root ++ [name]) with h1 | ⟨_, h1, _⟩
          · rw [h1, hl] at hs; exact absurd hs (by simp)
          · rw [h1] at hs; exact absurd hs (by simp)
      · unfold FS.mkdirp at hmkd
        rw [hl] at hmkd
        injection hmkd with hmkd
        rw [← hmkd]
        exact hl
    -- the index path differs from the target and the mount-dir path
    have hidxneT : cfg.vault_root ++ [name] ++ ["index.md"] ≠ cfg.vault_root ++ [name] := by
      intro heq
      have := congrArg List.length heq
      simp at this
    have hidxneM : cfg.vault_root ++ [name] ++ ["index.md"] ≠
        cfg.vault_root ++ [name] ++ [cfg.mount_dir] := by
      intro heq
      have := congrArg List.getLast? heq
      rw [List.getLast?_concat, List.getLast?_concat] at this
      injection this with h
      exact hmdname h.symm
    -- evaluate ensure_global_vault
    have hmd1' : fs₁.existsP (cfg.vault_root ++ [name] ++ [cfg.mount_dir]) = false :=
      fs₁.existsP_false_of_lookup_none _ hmd1
    unfold ensure_global_vault
    rw [if_neg (by rw [hname]; simp : ¬ ((strStartsWith name "_" ||
      strStartsWith name ".") = true))]
    simp only []
    rw [hmkd]
    simp only []
    rw [if_neg (by rw [hmd1']; simp : ¬ (fs₁.existsP (cfg.vault_root ++ [name] ++
      [cfg.mount_dir]) = true))]
    -- the final state of ensure
    set idx := cfg.vault_root ++ [name] ++ ["index.md"] with hidxdef
    set fs₂ := if fs₁.existsP idx = true then fs₁
               else fs₁.insertEntry idx (Entry.file ("# " ++ name ++ "\n\n")) with hfs₂def
    refine ⟨fs₂, rfl, ?_⟩
    -- facts about fs₂
    have hT2 : fs₂.lookup (cfg.vault_root ++ [name]) = some Entry.dir := by
      rw [hfs₂def]
      by_cases hi : fs₁.existsP idx = true
      · rw [if_pos hi]; exact hT1
      · rw [if_neg hi, fs₁.lookup_insert_ne _ _ _ (fun he => hidxneT he.symm)]
        exact hT1
    have hmd2 : fs₂.lookup (cfg.vault_root ++ [name] ++ [cfg.mount_dir]) = none := by
      rw [hfs₂def]
      by_cases hi : fs₁.existsP idx = true
      · rw [if_pos hi]; exact hmd1
      · rw [if_neg hi, fs₁.lookup_insert_ne _ _ _ (fun he => hidxneM he.symm)]
        exact hmd1
    have hR2 : fs₂.lookup cfg.vault_root = some Entry.dir := by
      have hidxneR : idx ≠ cfg.vault_root := by
        intro heq
        have := congrArg List.length heq
        rw [hidxdef] at this
        simp at this
      have hR1 : fs₁.lookup cfg.vault_root = some Entry.dir := by
        rcases hroot with hr | ⟨hr, hT⟩
        · rcases FS.mkdirp_lookup fs fs₁ _ hmkd cfg.vault_root with h1 | ⟨h1, _, _⟩
          · rw [h1]; exact hr
          · rw [h1] at hr; exact absurd hr (by simp)
        · unfold FS.mkdirp at hmkd
          rw [hT] at hmkd
          have hpd := FS.mkdirpAux_postdir (prefixesOf (cfg.vault_root ++ [name])) fs fs₁
            hmkd cfg.vault_root
            ((mem_prefixesOf _ _).mpr ⟨hrootne, List.prefix_append _ _⟩)
          rcases hpd with hd | ⟨t, hs, _⟩
          · exact hd
          · rcases FS.mkdirpAux_lookup (prefixesOf (cfg.vault_root ++ [name])) fs fs₁
              hmkd cfg.vault_root with h1 | ⟨_, h1, _⟩
            · rw [h1, hr] at hs; exact absurd hs (by simp)
            · rw [h1] at hs; exact absurd hs (by simp)
      rw [hfs₂def]
      by_cases hi : fs₁.existsP idx = true
      · rw [if_pos hi]; exact hR1
      · rw [if_neg hi, fs₁.lookup_insert_ne _ _ _ (fun he => hidxneR he.symm)]
        exact hR1
    -- discovery on fs₂ is a no-op and contains the name
    have hdisc : discover_globals cfg fs₂ = .ok (globalsOf cfg fs₂, fs₂) := by
      unfold discover_globals
      rw [FS.mkdirp_noop_dir _ _ hR2]
    refine ⟨globalsOf cfg fs₂, fs₂, hdisc, ?_⟩
    apply (mem_globalsOf cfg fs₂ name _).mpr
    refine ⟨rfl, ?_⟩
    have hig : is_ignored_root_entry (cfg.vault_root ++ [name]) = false := by
      unfold is_ignored_root_entry FPath.name
      rw [List.getLast?_concat]
      simp only [Option.getD_some]
      simp only [Bool.or_eq_false_iff] at hname ⊢
      exact ⟨hname.2, hname.1⟩
    unfold is_mountable_global
    rw [fs₂.existsP_of_lookup_dir _ hT2, fs₂.isDirP_of_lookup_dir _ hT2,
        fs₂.isSymlinkP_false_of_lookup_dir _ hT2, hig,
        fs₂.existsP_false_of_lookup_none _ hmd2]
    rw [List.isPrefixOf_iff_prefix.mpr (List.prefix_append _ _)]
    rw [show ((cfg.vault_root ++ [name]).dropLast == cfg.vault_root) = true by
      rw [List.dropLast_concat]; exact beq_self_eq_true _]
    rfl

/-- Witness for the amended C7 at a concrete input: creating `g` under an
existing root succeeds and `g` is then discovered. -/
theorem ensure_global_vault_spec_amended_witness :
    ∃ fs₂, ensure_global_vault cfgC1 "g" fsC1 = .ok (["v", "g"], fs₂) ∧
      ∃ m fs₃, discover_globals cfgC1 fs₂ = .ok (m, fs₃) ∧ ("g", ["v", "g"]) ∈ m :=
  (ensure_global_vault_spec_amended cfgC1 fsC1 "g").2.2 fsC1 (by decide) (by decide)
    (by decide) (Or.inl (by decide)) (Or.inr (by decide)) (by decide) (by decide)

/-- Concrete state for the C8 witness: an already-materialized project
vault with an index document. -/
def fsC8 : FS := ⟨[(["p"], Entry.dir), (["p", ".vault"], Entry.dir),
  (["p", ".vault", "_m"], Entry.dir), (["p", ".vault", "index.md"], Entry.file "hello")]⟩

/-- Witness for C8 at a concrete input: the second call returns the same
pair and state, and the index content survives. -/
theorem ensure_project_vault_idempotent_witness :
    ensure_project_vault cfgC1 ["p"] fsC8 =
      .ok ((["p", ".vault"], ["p", ".vault", "_m"]), fsC8) ∧
    fsC8.lookup ["p", ".vault", "index.md"] = some (Entry.file "hello") :=
  ⟨(ensure_project_vault_idempotent cfgC1 ["p"] fsC8 fsC8
      (["p", ".vault"], ["p", ".vault", "_m"])
      (by intro t h
          rw [(by decide : fsC8.lookup (["p"] ++ [cfgC1.project_vault_dir]) =
            some Entry.dir)] at h
          simp at h)
      (by intro t h
          rw [(by decide : fsC8.lookup (["p"] ++ [cfgC1.project_vault_dir] ++
            [cfgC1.mount_dir]) = some Entry.dir)] at h
          simp at h)
      (by decide)).1,
   (ensure_project_vault_idempotent cfgC1 ["p"] fsC8 fsC8
      (["p", ".vault"], ["p", ".vault", "_m"])
      (by intro t h
          rw [(by decide : fsC8.lookup (["p"] ++ [cfgC1.project_vault_dir]) =
            some Entry.dir)] at h
          simp at h)
      (by intro t h
          rw [(by decide : fsC8.lookup (["p"] ++ [cfgC1.project_vault_dir] ++
            [cfgC1.mount_dir]) = some Entry.dir)] at h
          simp at h)
      (by decide)).2 "hello" (by decide)⟩

/-! ## Evolution lemmas for the mount engine proofs -/

/-- Positions touched by the materializer lie on the project side: under the
project root or under the project vault directory.  No such position is an
extension of `vault_root` when neither tree is nested in the other. -/
theorem rootExt_not_projside (root proj : FPath) (pvd : String)
    (h1 : ¬ root <+: proj) (h2 : ¬ (proj ++ [pvd]) <+: root)
    (q : FPath) (hq : q <+: proj ∨ ∃ s, q = proj ++ [pvd] ++ s)
    (s : FPath) : q ≠ root ++ s := by
  intro heq
  have hrq : root <+: q := heq ▸ List.prefix_append root s
  rcases hq with hq | ⟨s', rfl⟩
  · exact h1 (hrq.trans hq)
  · have hpq : proj ++ [pvd] <+: proj ++ [pvd] ++ s' := List.prefix_append _ _
    rcases List.prefix_or_prefix_of_prefix hrq hpq with hc | hc
    · rcases List.prefix_concat_iff.mp hc with hc2 | hc2
      · exact h2 (hc2 ▸ List.prefix_refl _)
      · exact h1 hc2
    · exact h2 hc

/-- `mkdirp` introduces no symbolic links. -/
theorem FS.mkdirp_no_new_symlink (fs fs' : FS) (p : FPath) (h : fs.mkdirp p = .ok fs')
    (q t : FPath) (hs : fs'.lookup q = some (Entry.symlink t)) :
    fs.lookup q = some (Entry.symlink t) := by
  rcases fs.mkdirp_lookup fs' p h q with h1 | ⟨_, h1, _, _⟩
  · rw [h1] at hs; exact hs
  · rw [h1] at hs; exact absurd hs (by simp)

/-- The net effect of a successful `ensure_project_vault`: lookups change
only on project-side positions, and no symbolic link is introduced. -/
theorem ensure_project_vault_evolution (cfg : Config) (proj : FPath) (fs fs₁ : FS)
    (pr : FPath × FPath) (h : ensure_project_vault cfg proj fs = .ok (pr, fs₁)) :
    (∀ q, fs₁.lookup q = fs.lookup q ∨
      (q <+: proj ∨ ∃ s, q = proj ++ [cfg.project_vault_dir] ++ s)) ∧
    (∀ q t, fs₁.lookup q = some (Entry.symlink t) →
      fs.lookup q = some (Entry.symlink t)) := by
  unfold ensure_project_vault project_paths at h
  simp only [] at h
  cases hmkA : fs.mkdirp (proj ++ [cfg.project_vault_dir]) with
  | error e => rw [hmkA] at h; exact absurd h (by simp)
  | ok fsA =>
    rw [hmkA] at h
    simp only [] at h
    cases hmkB : fsA.mkdirp (proj ++ [cfg.project_vault_dir] ++ [cfg.mount_dir]) with
    | error e => rw [hmkB] at h; exact absurd h (by simp)
    | ok fsB =>
      rw [hmkB] at h
      simp only [Except.ok.injEq, Prod.mk.injEq] at h
      obtain ⟨_, hfs1⟩ := h
      have hsideA : ∀ q, q <+: proj ++ [cfg.project_vault_dir] →
          (q <+: proj ∨ ∃ s, q = proj ++ [cfg.project_vault_dir] ++ s) := by
        intro q hq
        rcases List.prefix_concat_iff.mp hq with hq2 | hq2
        · exact Or.inr ⟨[], by simpa using hq2⟩
        · exact Or.inl hq2
      have hsideB : ∀ q, q <+: proj ++ [cfg.project_vault_dir] ++ [cfg.mount_dir] →
          (q <+: proj ∨ ∃ s, q = proj ++ [cfg.project_vault_dir] ++ s) := by
        intro q hq
        rcases List.prefix_concat_iff.mp hq with hq2 | hq2
        · exact Or.inr ⟨[cfg.mount_dir], hq2⟩
        · exact hsideA q hq2
      constructor
      · intro q
        rcases fs.mkdirp_lookup fsA _ hmkA q with hA | ⟨_, _, _, hAp⟩
        · rcases fsA.mkdirp_lookup fsB _ hmkB q with hB | ⟨_, _, _, hBp⟩
          · by_cases hidx : fsB.existsP (proj ++ [cfg.project_vault_dir] ++ ["index.md"]) = true
            · rw [if_pos hidx] at hfs1
              subst hfs1
              rw [hB, hA]
              exact Or.inl rfl
            · rw [if_neg hidx] at hfs1
              subst hfs1
              by_cases hq : q = proj ++ [cfg.project_vault_dir] ++ ["index.md"]
              · exact Or.inr (Or.inr ⟨["index.md"], hq⟩)
              · rw [fsB.lookup_insert_ne _ _ _ hq, hB, hA]
                exact Or.inl rfl
          · exact Or.inr (hsideB q hBp)
        · exact Or.inr (hsideA q hAp)
      · intro q t hs
        have hsB : fsB.lookup q = some (Entry.symlink t) := by
          by_cases hidx : fsB.existsP (proj ++ [cfg.project_vault_dir] ++ ["index.md"]) = true
          · rw [if_pos hidx] at hfs1; rw [hfs1]; exact hs
          · rw [if_neg hidx] at hfs1
            subst hfs1
            by_cases hq : q = proj ++ [cfg.project_vault_dir] ++ ["index.md"]
            · subst hq
              rw [fsB.lookup_insert _ _] at hs
              exact absurd hs (by simp)
            · rw [fsB.lookup_insert_ne _ _ _ hq] at hs
              exact hs
        exact fs.mkdirp_no_new_symlink fsA _ hmkA q t
          (fsA.mkdirp_no_new_symlink fsB _ hmkB q t hsB)

/-- Post-state of a successful `ensure_project_vault` when no symbolic link
sits at the vault or mount directory paths: both are real directories, the
index document exists, and the returned pair is `(vault, mount)`. -/
theorem ensure_project_vault_post (cfg : Config) (proj : FPath) (fs fs₁ : FS)
    (pr : FPath × FPath)
    (hv : ∀ t, fs.lookup (proj ++ [cfg.project_vault_dir]) ≠ some (Entry.symlink t))
    (hmnt : ∀ t, fs.lookup (proj ++ [cfg.project_vault_dir] ++ [cfg.mount_dir]) ≠
      some (Entry.symlink t))
    (h : ensure_project_vault cfg proj fs = .ok (pr, fs₁)) :
    pr = (proj ++ [cfg.project_vault_dir],
          proj ++ [cfg.project_vault_dir] ++ [cfg.mount_dir]) ∧
    fs₁.lookup (proj ++ [cfg.project_vault_dir]) = some Entry.dir ∧
    fs₁.lookup (proj ++ [cfg.project_vault_dir] ++ [cfg.mount_dir]) = some Entry.dir ∧
    fs₁.existsP (proj ++ [cfg.project_vault_dir] ++ ["index.md"]) = true := by
  unfold ensure_project_vault project_paths at h
  simp only [] at h
  cases hmkA : fs.mkdirp (proj ++ [cfg.project_vault_dir]) with
  | error e => rw [hmkA] at h; exact absurd h (by simp)
  | ok fsA =>
    rw [hmkA] at h
    simp only [] at h
    cases hmkB : fsA.mkdirp (proj ++ [cfg.project_vault_dir] ++ [cfg.mount_dir]) with
    | error e => rw [hmkB] at h; exact absurd h (by simp)
    | ok fsB =>
      rw [hmkB] at h
      simp only [Except.ok.injEq, Prod.mk.injEq] at h
      obtain ⟨hpr, hfs1⟩ := h
      have hvne : proj ++ [cfg.project_vault_dir] ≠ [] := by simp
      have hmne : proj ++ [cfg.project_vault_dir] ++ [cfg.mount_dir] ≠ [] := by simp
      have h1 : fsA.lookup (proj ++ [cfg.project_vault_dir]) = some Entry.dir := by
        rcases fs.mkdirp_postdir fsA _ hmkA hvne with hd | ⟨t, hs, _⟩
        · exact hd
        · rcases fs.mkdirp_lookup fsA _ hmkA (proj ++ [cfg.project_vault_dir])
            with hl | ⟨_, hl, _, _⟩
          · rw [hl] at hs; exact absurd hs (hv t)
          · rw [hl] at hs; exact absurd hs (by simp)
      have h2 : fsB.lookup (proj ++ [cfg.project_vault_dir]) = some Entry.dir := by
        rcases fsA.mkdirp_lookup fsB _ hmkB (proj ++ [cfg.project_vault_dir])
          with hl | ⟨_, hl, _, _⟩
        · rw [hl]; exact h1
        · exact hl
      have h3 : fsB.lookup (proj ++ [cfg.project_vault_dir] ++ [cfg.mount_dir]) =
          some Entry.dir := by
        rcases fsA.mkdirp_postdir fsB _ hmkB hmne with hd | ⟨t, hs, _⟩
        · exact hd
        · rcases fsA.mkdirp_lookup fsB _ hmkB
            (proj ++ [cfg.project_vault_dir] ++ [cfg.mount_dir]) with hl | ⟨_, hl, _, _⟩
          · rw [hl] at hs
            rcases fs.mkdirp_lookup fsA _ hmkA
              (proj ++ [cfg.project_vault_dir] ++ [cfg.mount_dir]) with hl2 | ⟨_, hl2, _, _⟩
            · rw [hl2] at hs; exact absurd hs (hmnt t)
            · rw [hl2] at hs; exact absurd hs (by simp)
          · rw [hl] at hs; exact absurd hs (by simp)
      refine ⟨hpr.symm, ?_, ?_, ?_⟩
      · by_cases hidx : fsB.existsP (proj ++ [cfg.project_vault_dir] ++ ["index.md"]) = true
        · rw [if_pos hidx] at hfs1; rw [← hfs1]; exact h2
        · rw [if_neg hidx] at hfs1
          rw [← hfs1]
          rw [fsB.lookup_insert_ne _ _ _ (by
            intro he
            have := congrArg List.length he
            simp at this)]
          exact h2
      · by_cases hidx : fsB.existsP (proj ++ [cfg.project_vault_dir] ++ ["index.md"]) = true
        · rw [if_pos hidx] at hfs1; rw [← hfs1]; exact h3
        · rw [if_neg hidx] at hfs1
          rw [← hfs1]
          rw [fsB.lookup_insert_ne _ _ _ (by
            intro he
            rw [← he, fsB.existsP_of_lookup_dir _ h3] at hidx
            exact hidx rfl)]
          exact h3
      · by_cases hidx : fsB.existsP (proj ++ [cfg.project_vault_dir] ++ ["index.md"]) = true
        · rw [if_pos hidx] at hfs1; rw [← hfs1]; exact hidx
        · rw [if_neg hidx] at hfs1
          rw [← hfs1]
          exact FS.existsP_of_lookup_file _ _ projectIndexText (fsB.lookup_insert _ _)

/-- `ensure_project_vault` is a no-op on a fully materialized project
vault. -/
theorem ensure_project_vault_noop (cfg : Config) (proj : FPath) (fs : FS)
    (hv : fs.lookup (proj ++ [cfg.project_vault_dir]) = some Entry.dir)
    (hm : fs.lookup (proj ++ [cfg.project_vault_dir] ++ [cfg.mount_dir]) = some Entry.dir)
    (hi : fs.existsP (proj ++ [cfg.project_vault_dir] ++ ["index.md"]) = true) :
    ensure_project_vault cfg proj fs =
      .ok ((proj ++ [cfg.project_vault_dir],
            proj ++ [cfg.project_vault_dir] ++ [cfg.mount_dir]), fs) := by
  unfold ensure_project_vault project_paths
  simp only []
  rw [FS.mkdirp_noop_dir _ _ hv]
  simp only []
  rw [FS.mkdirp_noop_dir _ _ hm]
  simp only []
  rw [if_pos hi]

/-- Counterexample to C5.  With `vault_root = /v` holding the global `g`
and project root `/v/p/q` (inside `vault_root` but not inside any global),
the first mount succeeds — creating `/v/p` on the way — after which `/v/p`
is itself a mountable global vault, so the second identical call fails with
`InvalidLocation` instead of being an idempotent no-op. -/
theorem mount_twice_inside_root_fails :
    errOf (mount_global_into_project cfgC1 ["v", "p", "q"] "g" fsC1) = none ∧
    errOf (mount_global_into_project cfgC1 ["v", "p", "q"] "g"
      (mstate (mount_global_into_project cfgC1 ["v", "p", "q"] "g" fsC1))) =
      some Err.invalidLocation := by
  exact ⟨by decide, by decide⟩

/-- Configuration for the C10 counterexample: the project vault structure of
`/a` overlaps `vault_root = /a/v`, and the auto-mount list repeats `G`. -/
def cfgC10 : Config :=
  { config_version := 1, vault_root := ["a", "v"], project_vault_dir := "v",
    mount_dir := "G", auto_mount := ["G", "G"], create_desktop_launcher := false,
    desktop_launcher_name := "", editor := "obsidian" }

/-- Filesystem for the C10 counterexample. -/
def fsC10 : FS :=
  ⟨[(["a"], Entry.dir), (["a", "v"], Entry.dir), (["a", "v", "G"], Entry.dir)]⟩

/-- Counterexample to C10.  `G` is a discovered global vault, yet
`cmd_init` raises `NotFound`: the first auto-mount iteration creates the
link `/a/v/G/G` inside the global `G` itself (the project's mount directory
is `/a/v/G`), after which `G` fails the `mount_dir` check, so the second
iteration's rediscovery no longer contains `G`. -/
theorem cmd_init_duplicate_automount_notfound :
    is_mountable_global cfgC10 fsC10 ["a", "v", "G"] = true ∧
    errOf (cmd_init cfgC10 ["a"] fsC10) = some Err.notFound := by
  exact ⟨by decide, by decide⟩

/-- C5 amended.  Mount idempotence holds away from the nesting pathology:
if the project root is not inside `vault_root`, the project vault directory
is not an ancestor of `vault_root`, and the state carries no stray symbolic
links along the project vault path, along `vault_root`, or anywhere under
`vault_root`, then a successful mount followed by the identical call
succeeds again with the filesystem exactly unchanged, and the mount path
holds a single symbolic link resolving to the global vault.  (Inside
`vault_root` the first mount can promote the root's first component into a
discoverable global vault and the second call then fails — see the
counterexample.) -/
theorem mount_idempotent_outside_root (cfg : Config) (fs fs₁ : FS) (proj : FPath)
    (name : String)
    (h1 : ¬ (cfg.vault_root <+: proj))
    (h2 : ¬ ((proj ++ [cfg.project_vault_dir]) <+: cfg.vault_root))
    (h3 : noSymPrefixes fs (proj ++ [cfg.project_vault_dir] ++ [cfg.mount_dir]))
    (h4 : noSymPrefixes fs cfg.vault_root)
    (h5 : symFreeUnder fs cfg.vault_root)
    (h : mount_global_into_project cfg proj name fs = .ok fs₁) :
    mount_global_into_project cfg proj name fs₁ = .ok fs₁ ∧
    fs₁.isSymlinkP (proj ++ [cfg.project_vault_dir] ++ [cfg.mount_dir] ++ [name]) = true ∧
    fs₁.resolveP (proj ++ [cfg.project_vault_dir] ++ [cfg.mount_dir] ++ [name]) =
      fs₁.resolveP (cfg.vault_root ++ [name]) := by
  have hrootne : cfg.vault_root ≠ [] := fun hr =>
    h1 (hr ▸ (List.nil_prefix : ([] : FPath) <+: proj))
  have hvaultpre : proj ++ [cfg.project_vault_dir] <+:
      proj ++ [cfg.project_vault_dir] ++ [cfg.mount_dir] := List.prefix_append _ _
  have hprojpre : proj <+: proj ++ [cfg.project_vault_dir] ++ [cfg.mount_dir] :=
    (List.prefix_append proj _).trans hvaultpre
  -- dissect the first call
  unfold mount_global_into_project at h
  by_cases hin : is_inside_global_vault cfg fs proj = true
  · rw [if_pos hin] at h; exact absurd h (by simp)
  rw [if_neg hin] at h
  cases hmk : fs.mkdirp cfg.vault_root with
  | error e =>
    unfold discover_globals at h
    rw [hmk] at h
    simp at h
  | ok fsA =>
  have hdisc : discover_globals cfg fs = .ok (globalsOf cfg fsA, fsA) := by
    unfold discover_globals; rw [hmk]
  rw [hdisc] at h
  simp only [] at h
  cases hln : lookupName (globalsOf cfg fsA) name with
  | none => rw [hln] at h; simp at h
  | some target =>
  rw [hln] at h
  simp only [] at h
  cases hens : ensure_project_vault cfg proj fsA with
  | error e => rw [hens] at h; simp at h
  | ok res =>
  obtain ⟨⟨vaultv, mountv⟩, fsB⟩ := res
  rw [hens] at h
  simp only [] at h
  -- shape of the discovered target
  have htar : target = cfg.vault_root ++ [name] :=
    globalsOf_shape cfg fsA name target (lookupName_eq_some_imp _ _ _ hln)
  have hmtA : is_mountable_global cfg fsA (cfg.vault_root ++ [name]) = true :=
    ((mem_globalsOf cfg fsA name target).mp (lookupName_eq_some_imp _ _ _ hln)).2
  subst htar
  -- the target is a real directory of fsA and holds no mount_dir entry
  unfold is_mountable_global at hmtA
  simp only [Bool.and_eq_true, Bool.not_eq_true'] at hmtA
  obtain ⟨⟨⟨⟨⟨⟨hexA, hdirA⟩, higA⟩, hsymA⟩, _hpreA⟩, hpeA⟩, hmdA⟩ := hmtA
  have htdirA : fsA.lookup (cfg.vault_root ++ [name]) = some Entry.dir :=
    FS.lookup_dir_of_flags fsA _ hexA hdirA hsymA
  have hsfA : symFreeUnder fsA cfg.vault_root := fun q t hq =>
    h5 q t (fs.mkdirp_no_new_symlink fsA _ hmk q t hq)
  have hmdlkA : fsA.lookup (cfg.vault_root ++ [name] ++ [cfg.mount_dir]) = none := by
    cases hx : fsA.lookup (cfg.vault_root ++ [name] ++ [cfg.mount_dir]) with
    | none => rfl
    | some e =>
      cases e with
      | dir => rw [fsA.existsP_of_lookup_dir _ hx] at hmdA; exact absurd hmdA (by simp)
      | file c => rw [fsA.existsP_of_lookup_file _ c hx] at hmdA; exact absurd hmdA (by simp)
      | symlink t =>
        exact absurd ((List.prefix_append _ _).trans (List.prefix_append _ _) :
          cfg.vault_root <+: cfg.vault_root ++ [name] ++ [cfg.mount_dir])
          (hsfA _ t hx)
  -- the root is a real directory of fsA
  have hrdirA : fsA.lookup cfg.vault_root = some Entry.dir := by
    cases hlr : fs.lookup cfg.vault_root with
    | some e =>
      cases e with
      | dir =>
        unfold FS.mkdirp at hmk
        rw [hlr] at hmk
        injection hmk with hmk
        rw [← hmk]
        exact hlr
      | file c =>
        unfold FS.mkdirp at hmk
        rw [hlr] at hmk
        exact absurd hmk (by simp)
      | symlink t =>
        exact absurd hlr (lookup_not_symlink_of_symTarget_none fs _
          (noSymPrefixes_forall fs _ h4 _ hrootne (List.prefix_refl _)) t)
    | none =>
      unfold FS.mkdirp at hmk
      rw [hlr] at hmk
      rcases FS.mkdirpAux_postdir _ fs fsA hmk cfg.vault_root
        ((mem_prefixesOf _ _).mpr ⟨hrootne, List.prefix_refl _⟩) with hd | ⟨t, hs, _⟩
      · exact hd
      · rcases FS.mkdirpAux_lookup _ fs fsA hmk cfg.vault_root with hL | ⟨_, hL, _⟩
        · rw [hL, hlr] at hs; exact absurd hs (by simp)
        · rw [hL] at hs; exact absurd hs (by simp)
  -- the returned pair of the materializer
  have hvA : ∀ t, fsA.lookup (proj ++ [cfg.project_vault_dir]) ≠
      some (Entry.symlink t) := by
    intro t ht
    have := fs.mkdirp_no_new_symlink fsA _ hmk _ t ht
    exact absurd this (lookup_not_symlink_of_symTarget_none fs _
      (noSymPrefixes_forall fs _ h3 _ (by simp) hvaultpre) t)
  have hmntA : ∀ t, fsA.lookup (proj ++ [cfg.project_vault_dir] ++ [cfg.mount_dir]) ≠
      some (Entry.symlink t) := by
    intro t ht
    have := fs.mkdirp_no_new_symlink fsA _ hmk _ t ht
    exact absurd this (lookup_not_symlink_of_symTarget_none fs _
      (noSymPrefixes_forall fs _ h3 _ (by simp) (List.prefix_refl _)) t)
  obtain ⟨hprpair, hvB, hmB, hiB⟩ :=
    ensure_project_vault_post cfg proj fsA fsB _ hvA hmntA hens
  injection hprpair with hvv hmv
  subst hvv
  subst hmv
  obtain ⟨hposB, hnosymB⟩ := ensure_project_vault_evolution cfg proj fsA fsB _ hens
  -- the shared second-call argument over an abstract final state
  have hmain : ∀ (fsX : FS),
      (∀ q, cfg.vault_root <+: q → fsX.lookup q = fsA.lookup q) →
      (∀ q t, fsX.lookup q = some (Entry.symlink t) →
        fs.lookup q = some (Entry.symlink t) ∨
          q = proj ++ [cfg.project_vault_dir] ++ [cfg.mount_dir] ++ [name]) →
      fsX.lookup (proj ++ [cfg.project_vault_dir]) = some Entry.dir →
      fsX.lookup (proj ++ [cfg.project_vault_dir] ++ [cfg.mount_dir]) = some Entry.dir →
      fsX.existsP (proj ++ [cfg.project_vault_dir] ++ ["index.md"]) = true →
      ((fsX.existsP (proj ++ [cfg.project_vault_dir] ++ [cfg.mount_dir] ++ [name]) ||
        fsX.isSymlinkP (proj ++ [cfg.project_vault_dir] ++ [cfg.mount_dir] ++ [name]))
        = true) →
      ((fsX.isSymlinkP (proj ++ [cfg.project_vault_dir] ++ [cfg.mount_dir] ++ [name]) &&
        (fsX.resolveP (proj ++ [cfg.project_vault_dir] ++ [cfg.mount_dir] ++ [name]) ==
         fsX.resolveP (cfg.vault_root ++ [name]))) = true) →
      mount_global_into_project cfg proj name fsX = .ok fsX := by
    intro fsX hpres hnews hvX hmX hiX hoccX hgoodX
    have hsymNone : ∀ q, q ≠ [] →
        q <+: proj ++ [cfg.project_vault_dir] ++ [cfg.mount_dir] →
        symTarget fsX q = none := by
      intro q hq hqp
      apply symTarget_eq_none_of_not_symlink
      intro t ht
      rcases hnews q t ht with hf | hql
      · exact absurd hf (lookup_not_symlink_of_symTarget_none fs _
          (noSymPrefixes_forall fs _ h3 q hq hqp) t)
      · have hlen := hqp.length_le
        rw [hql] at hlen
        simp at hlen
    have hrproj : fsX.resolveP proj = proj := by
      apply resolveP_no_sym
      apply noSymPrefixes_of_forall
      intro q hq hqp
      exact hsymNone q hq (hqp.trans hprojpre)
    have hrroot : fsX.resolveP cfg.vault_root = cfg.vault_root := by
      apply resolveP_no_sym
      apply noSymPrefixes_of_forall
      intro q hq hqp
      apply symTarget_eq_none_of_not_symlink
      intro t ht
      rcases hnews q t ht with hf | hql
      · exact absurd hf (lookup_not_symlink_of_symTarget_none fs _
          (noSymPrefixes_forall fs _ h4 q hq hqp) t)
      · -- the link cannot be a prefix of the root
        apply h2
        apply hvaultpre.trans
        apply (List.prefix_append _ [name]).trans
        rw [← hql]
        exact hqp
    have hin2 : is_inside_global_vault cfg fsX proj = false := by
      rw [is_inside_global_vault_eq, hrroot, hrproj]
      have hb : List.isPrefixOf cfg.vault_root proj = false := by
        cases hb : List.isPrefixOf cfg.vault_root proj
        · rfl
        · exact absurd (List.isPrefixOf_iff_prefix.mp hb) h1
      rw [hb]
      simp
    have hrdirX : fsX.lookup cfg.vault_root = some Entry.dir := by
      rw [hpres cfg.vault_root (List.prefix_refl _)]
      exact hrdirA
    have hdiscX : discover_globals cfg fsX = .ok (globalsOf cfg fsX, fsX) := by
      unfold discover_globals
      rw [FS.mkdirp_noop_dir _ _ hrdirX]
    have htdirX : fsX.lookup (cfg.vault_root ++ [name]) = some Entry.dir := by
      rw [hpres _ (List.prefix_append _ _)]
      exact htdirA
    have hmdX : fsX.lookup (cfg.vault_root ++ [name] ++ [cfg.mount_dir]) = none := by
      rw [hpres _ ((List.prefix_append _ _).trans (List.prefix_append _ _))]
      exact hmdlkA
    have hmtX : is_mountable_global cfg fsX (cfg.vault_root ++ [name]) = true := by
      unfold is_mountable_global
      rw [fsX.existsP_of_lookup_dir _ htdirX, fsX.isDirP_of_lookup_dir _ htdirX,
          fsX.isSymlinkP_false_of_lookup_dir _ htdirX, higA, hpeA,
          fsX.existsP_false_of_lookup_none _ hmdX]
      rw [List.isPrefixOf_iff_prefix.mpr (List.prefix_append _ _)]
      rfl
    have hlnX : lookupName (globalsOf cfg fsX) name = some (cfg.vault_root ++ [name]) :=
      lookupName_globalsOf cfg fsX name hmtX
    have hensX := ensure_project_vault_noop cfg proj fsX hvX hmX hiX
    unfold mount_global_into_project
    rw [if_neg (by rw [hin2]; simp : ¬ (is_inside_global_vault cfg fsX proj = true))]
    rw [hdiscX]
    simp only []
    rw [hlnX]
    simp only []
    rw [hensX]
    simp only []
    rw [if_pos hoccX, if_pos hgoodX]
  -- case split on how the first call finished
  by_cases hocc : (fsB.existsP (proj ++ [cfg.project_vault_dir] ++ [cfg.mount_dir] ++ [name]) ||
      fsB.isSymlinkP (proj ++ [cfg.project_vault_dir] ++ [cfg.mount_dir] ++ [name])) = true
  · rw [if_pos hocc] at h
    by_cases hgood : (fsB.isSymlinkP (proj ++ [cfg.project_vault_dir] ++ [cfg.mount_dir] ++ [name]) &&
        (fsB.resolveP (proj ++ [cfg.project_vault_dir] ++ [cfg.mount_dir] ++ [name]) ==
         fsB.resolveP (cfg.vault_root ++ [name]))) = true
    · rw [if_pos hgood] at h
      injection h with h
      subst fs₁
      -- the idempotent branch: the state is unchanged
      have hpresB : ∀ q, cfg.vault_root <+: q → fsB.lookup q = fsA.lookup q := by
        intro q hq
        rcases hposB q with he | hside
        · exact he
        · exact ((rootExt_not_projside cfg.vault_root proj cfg.project_vault_dir h1 h2 q hside
              (q.drop cfg.vault_root.length)) (by
                rw [List.prefix_iff_eq_append] at hq
                exact hq.symm)).elim
      have hnewsB : ∀ q t, fsB.lookup q = some (Entry.symlink t) →
          fs.lookup q = some (Entry.symlink t) ∨
            q = proj ++ [cfg.project_vault_dir] ++ [cfg.mount_dir] ++ [name] := by
        intro q t ht
        exact Or.inl (fs.mkdirp_no_new_symlink fsA _ hmk q t (hnosymB q t ht))
      have hsym1 := (Bool.and_eq_true _ _).mp hgood
      refine ⟨hmain fsB hpresB hnewsB hvB hmB hiB hocc hgood, hsym1.1, ?_⟩
      have := hsym1.2
      exact eq_of_beq this
    · rw [if_neg hgood] at h
      exact absurd h (by simp)
  · rw [if_neg hocc] at h
    injection h with h
    subst fs₁
    set fsC := fsB.insertEntry
      (proj ++ [cfg.project_vault_dir] ++ [cfg.mount_dir] ++ [name])
      (Entry.symlink (cfg.vault_root ++ [name])) with hfsC
    -- the creation branch: a fresh link entry was inserted
    have hlknone : fsB.lookup (proj ++ [cfg.project_vault_dir] ++ [cfg.mount_dir] ++ [name]) =
        none := by
      cases hx : fsB.lookup (proj ++ [cfg.project_vault_dir] ++ [cfg.mount_dir] ++ [name]) with
      | none => rfl
      | some e =>
        cases e with
        | dir =>
          rw [Bool.or_eq_true] at hocc
          exact absurd (Or.inl (fsB.existsP_of_lookup_dir _ hx)) hocc
        | file c =>
          rw [Bool.or_eq_true] at hocc
          exact absurd (Or.inl (fsB.existsP_of_lookup_file _ c hx)) hocc
        | symlink t =>
          rw [Bool.or_eq_true] at hocc
          exact absurd (Or.inr (by unfold FS.isSymlinkP; rw [hx])) hocc
    have hlinkside : ∃ s, proj ++ [cfg.project_vault_dir] ++ [cfg.mount_dir] ++ [name] =
        proj ++ [cfg.project_vault_dir] ++ s :=
      ⟨[cfg.mount_dir, name], by simp⟩
    have hpres1 : ∀ q, cfg.vault_root <+: q → fsC.lookup q = fsA.lookup q := by
      intro q hq
      have hqform : q = cfg.vault_root ++ q.drop cfg.vault_root.length := by
        rw [List.prefix_iff_eq_append] at hq
        exact hq.symm
      rw [hfsC, fsB.lookup_insert_ne _ _ q (by
        intro he
        exact rootExt_not_projside cfg.vault_root proj cfg.project_vault_dir h1 h2 _
          (Or.inr hlinkside) (q.drop cfg.vault_root.length) (he ▸ hqform))]
      rcases hposB q with he | hside
      · exact he
      · exact ((rootExt_not_projside cfg.vault_root proj cfg.project_vault_dir h1 h2 q hside
            (q.drop cfg.vault_root.length)) hqform).elim
    have hnews1 : ∀ q t, fsC.lookup q = some (Entry.symlink t) →
        fs.lookup q = some (Entry.symlink t) ∨
          q = proj ++ [cfg.project_vault_dir] ++ [cfg.mount_dir] ++ [name] := by
      intro q t ht
      by_cases hq : q = proj ++ [cfg.project_vault_dir] ++ [cfg.mount_dir] ++ [name]
      · exact Or.inr hq
      · rw [hfsC, fsB.lookup_insert_ne _ _ q hq] at ht
        exact Or.inl (fs.mkdirp_no_new_symlink fsA _ hmk q t (hnosymB q t ht))
    have hlenvault : proj ++ [cfg.project_vault_dir] ++ [cfg.mount_dir] ++ [name] ≠
        proj ++ [cfg.project_vault_dir] := by
      intro he
      have := congrArg List.length he
      simp at this
    have hlenmount : proj ++ [cfg.project_vault_dir] ++ [cfg.mount_dir] ++ [name] ≠
        proj ++ [cfg.project_vault_dir] ++ [cfg.mount_dir] := by
      intro he
      have := congrArg List.length he
      simp at this
    have hv1 : fsC.lookup (proj ++ [cfg.project_vault_dir]) = some Entry.dir := by
      rw [hfsC, fsB.lookup_insert_ne _ _ _ (fun he => hlenvault he.symm)]
      exact hvB
    have hm1 : fsC.lookup (proj ++ [cfg.project_vault_dir] ++ [cfg.mount_dir]) =
        some Entry.dir := by
      rw [hfsC, fsB.lookup_insert_ne _ _ _ (fun he => hlenmount he.symm)]
      exact hmB
    have hi1 : fsC.existsP (proj ++ [cfg.project_vault_dir] ++ ["index.md"]) = true := by
      rw [hfsC]
      exact fsB.existsP_insert_none _ _ hlknone _ hiB
    have hlk1 : fsC.lookup (proj ++ [cfg.project_vault_dir] ++ [cfg.mount_dir] ++ [name]) =
        some (Entry.symlink (cfg.vault_root ++ [name])) := by
      rw [hfsC]
      exact fsB.lookup_insert _ _
    have hsym1 : fsC.isSymlinkP (proj ++ [cfg.project_vault_dir] ++ [cfg.mount_dir] ++ [name]) =
        true := by
      unfold FS.isSymlinkP
      rw [hlk1]
    -- resolve the fresh link and its target
    have hsymNone1 : ∀ q, q ≠ [] →
        q <+: proj ++ [cfg.project_vault_dir] ++ [cfg.mount_dir] →
        symTarget fsC q = none := by
      intro q hq hqp
      apply symTarget_eq_none_of_not_symlink
      intro t ht
      rcases hnews1 q t ht with hf | hql
      · exact absurd hf (lookup_not_symlink_of_symTarget_none fs _
          (noSymPrefixes_forall fs _ h3 q hq hqp) t)
      · have hlen := hqp.length_le
        rw [hql] at hlen
        simp at hlen
    have hrootNone1 : ∀ q, q ≠ [] → q <+: cfg.vault_root → symTarget fsC q = none := by
      intro q hq hqp
      apply symTarget_eq_none_of_not_symlink
      intro t ht
      rcases hnews1 q t ht with hf | hql
      · exact absurd hf (lookup_not_symlink_of_symTarget_none fs _
          (noSymPrefixes_forall fs _ h4 q hq hqp) t)
      · apply h2
        apply hvaultpre.trans
        apply (List.prefix_append _ [name]).trans
        rw [← hql]
        exact hqp
    have htdir1 : fsC.lookup (cfg.vault_root ++ [name]) = some Entry.dir := by
      rw [hpres1 _ (List.prefix_append _ _)]
      exact htdirA
    have htargNone1 : ∀ q, q ≠ [] → q <+: cfg.vault_root ++ [name] →
        symTarget fsC q = none := by
      intro q hq hqp
      rcases List.prefix_concat_iff.mp hqp with hq2 | hq2
      · rw [hq2]
        apply symTarget_eq_none_of_not_symlink
        intro t ht
        rw [htdir1] at ht
        exact absurd ht (by simp)
      · exact hrootNone1 q hq hq2
    have hres1 : fsC.resolveP (proj ++ [cfg.project_vault_dir] ++ [cfg.mount_dir] ++ [name]) =
        cfg.vault_root ++ [name] := by
      apply resolveP_last_sym fsC _ _ ?_ ?_ htargNone1 (by simp)
      · intro q hq hqp hqne
        rcases List.prefix_concat_iff.mp hqp with hq2 | hq2
        · exact absurd hq2 hqne
        · exact hsymNone1 q hq hq2
      · unfold symTarget
        rw [hlk1]
    have hres2 : fsC.resolveP (cfg.vault_root ++ [name]) = cfg.vault_root ++ [name] := by
      apply resolveP_no_sym
      exact noSymPrefixes_of_forall _ _ htargNone1
    have hocc1 : (fsC.existsP (proj ++ [cfg.project_vault_dir] ++ [cfg.mount_dir] ++ [name]) ||
        fsC.isSymlinkP (proj ++ [cfg.project_vault_dir] ++ [cfg.mount_dir] ++ [name]))
        = true := by
      rw [hsym1]
      simp
    have hgood1 : (fsC.isSymlinkP (proj ++ [cfg.project_vault_dir] ++ [cfg.mount_dir] ++ [name]) &&
        (fsC.resolveP (proj ++ [cfg.project_vault_dir] ++ [cfg.mount_dir] ++ [name]) ==
         fsC.resolveP (cfg.vault_root ++ [name]))) = true := by
      rw [hsym1, hres1, hres2]
      simp
    refine ⟨hmain fsC hpres1 hnews1 hv1 hm1 hi1 hocc1 hgood1, hsym1, ?_⟩
    rw [hres1, hres2]

/-- A filesystem whose entry list holds no symbolic links is symlink-free
below any path. -/
theorem symFreeUnder_of_entries (fs : FS) (r : FPath)
    (h : fs.entries.all
      (fun pe => match pe.2 with | Entry.symlink _ => false | _ => true) = true) :
    symFreeUnder fs r := by
  intro q t hq
  rw [List.all_eq_true] at h
  have := h (q, Entry.symlink t) (fs.exists_entry_of_lookup q _ hq)
  simp at this

/-- Witness for the amended C5 at a concrete input: mounting `g` into the
project `/p` twice is an idempotent no-op with a single correct link. -/
theorem mount_idempotent_outside_root_witness :
    mount_global_into_project cfgC1 ["p"] "g"
      ⟨[(["p", ".vault", "_m", "g"], Entry.symlink ["v", "g"]),
        (["p", ".vault", "index.md"], Entry.file projectIndexText),
        (["p", ".vault", "_m"], Entry.dir),
        (["p", ".vault"], Entry.dir),
        (["p"], Entry.dir),
        (["v"], Entry.dir),
        (["v", "g"], Entry.dir)]⟩ =
      .ok ⟨[(["p", ".vault", "_m", "g"], Entry.symlink ["v", "g"]),
        (["p", ".vault", "index.md"], Entry.file projectIndexText),
        (["p", ".vault", "_m"], Entry.dir),
        (["p", ".vault"], Entry.dir),
        (["p"], Entry.dir),
        (["v"], Entry.dir),
        (["v", "g"], Entry.dir)]⟩ :=
  (mount_idempotent_outside_root cfgC1 fsC1 _ ["p"] "g"
    (by decide) (by decide) (by decide) (by decide)
    (symFreeUnder_of_entries fsC1 _ (by decide))
    (by decide)).1

/-- `ensure_project_vault` fails only with raw filesystem errors. -/
theorem ensure_project_vault_err (cfg : Config) (proj : FPath) (fs : FS) (e : Err × FS)
    (h : ensure_project_vault cfg proj fs = .error e) : e.1 = Err.fsError := by
  unfold ensure_project_vault project_paths at h
  simp only [] at h
  cases hmkA : fs.mkdirp (proj ++ [cfg.project_vault_dir]) with
  | error e' =>
    rw [hmkA] at h
    injection h with h
    rw [← h]
    exact fs.mkdirp_err _ _ hmkA
  | ok fsA =>
    rw [hmkA] at h
    simp only [] at h
    cases hmkB : fsA.mkdirp (proj ++ [cfg.project_vault_dir] ++ [cfg.mount_dir]) with
    | error e' =>
      rw [hmkB] at h
      injection h with h
      rw [← h]
      exact fsA.mkdirp_err _ _ hmkB
    | ok fsB =>
      rw [hmkB] at h
      exact absurd h (by simp)

/-- `discover_globals` fails only with raw filesystem errors. -/
theorem discover_globals_err (cfg : Config) (fs : FS) (e : Err × FS)
    (h : discover_globals cfg fs = .error e) : e.1 = Err.fsError := by
  unfold discover_globals at h
  cases hmk : fs.mkdirp cfg.vault_root with
  | error e' =>
    rw [hmk] at h
    injection h with h
    rw [← h]
    exact fs.mkdirp_err _ _ hmk
  | ok fs₁ =>
    rw [hmk] at h
    exact absurd h (by simp)

/-- One auto-mount iteration can fail only with `InvalidLocation` or
`AlreadyExists` — never `NotFound` — and on success it preserves the loop
invariant: the `vault_root` subtree is untouched and the project vault stays
materialized. -/
theorem mount_step_no_notfound (cfg : Config) (fs₂ : FS) (proj : FPath) (n : String)
    (h1 : ¬ (cfg.vault_root <+: proj))
    (h2 : ¬ ((proj ++ [cfg.project_vault_dir]) <+: cfg.vault_root))
    (hsf2 : symFreeUnder fs₂ cfg.vault_root)
    (hrdir2 : fs₂.lookup cfg.vault_root = some Entry.dir)
    (hmt2 : is_mountable_global cfg fs₂ (cfg.vault_root ++ [n]) = true)
    (fsX : FS)
    (hA : ∀ q, cfg.vault_root <+: q → fsX.lookup q = fs₂.lookup q)
    (hC : fsX.lookup (proj ++ [cfg.project_vault_dir]) = some Entry.dir)
    (hD : fsX.lookup (proj ++ [cfg.project_vault_dir] ++ [cfg.mount_dir]) = some Entry.dir)
    (hE : fsX.existsP (proj ++ [cfg.project_vault_dir] ++ ["index.md"]) = true) :
    (∀ e, mount_global_into_project cfg proj n fsX = .error e → e.1 ≠ Err.notFound) ∧
    (∀ fsY, mount_global_into_project cfg proj n fsX = .ok fsY →
      ((∀ q, cfg.vault_root <+: q → fsY.lookup q = fs₂.lookup q) ∧
       fsY.lookup (proj ++ [cfg.project_vault_dir]) = some Entry.dir ∧
       fsY.lookup (proj ++ [cfg.project_vault_dir] ++ [cfg.mount_dir]) = some Entry.dir ∧
       fsY.existsP (proj ++ [cfg.project_vault_dir] ++ ["index.md"]) = true)) := by
  -- the discovered target stays mountable in the current state
  unfold is_mountable_global at hmt2
  simp only [Bool.and_eq_true, Bool.not_eq_true'] at hmt2
  obtain ⟨⟨⟨⟨⟨⟨hex2, hdir2⟩, hig2⟩, hsym2⟩, _hpre2⟩, hpe2⟩, hmd2⟩ := hmt2
  have htdir2 : fs₂.lookup (cfg.vault_root ++ [n]) = some Entry.dir :=
    FS.lookup_dir_of_flags fs₂ _ hex2 hdir2 hsym2
  have hmdlk2 : fs₂.lookup (cfg.vault_root ++ [n] ++ [cfg.mount_dir]) = none := by
    cases hx : fs₂.lookup (cfg.vault_root ++ [n] ++ [cfg.mount_dir]) with
    | none => rfl
    | some e =>
      cases e with
      | dir => rw [fs₂.existsP_of_lookup_dir _ hx] at hmd2; exact absurd hmd2 (by simp)
      | file c => rw [fs₂.existsP_of_lookup_file _ c hx] at hmd2; exact absurd hmd2 (by simp)
      | symlink t =>
        exact absurd ((List.prefix_append _ _).trans (List.prefix_append _ _) :
          cfg.vault_root <+: cfg.vault_root ++ [n] ++ [cfg.mount_dir]) (hsf2 _ t hx)
  have hrdirX : fsX.lookup cfg.vault_root = some Entry.dir := by
    rw [hA cfg.vault_root (List.prefix_refl _)]
    exact hrdir2
  have htdirX : fsX.lookup (cfg.vault_root ++ [n]) = some Entry.dir := by
    rw [hA _ (List.prefix_append _ _)]
    exact htdir2
  have hmdX : fsX.lookup (cfg.vault_root ++ [n] ++ [cfg.mount_dir]) = none := by
    rw [hA _ ((List.prefix_append _ _).trans (List.prefix_append _ _))]
    exact hmdlk2
  have hmtX : is_mountable_global cfg fsX (cfg.vault_root ++ [n]) = true := by
    unfold is_mountable_global
    rw [fsX.existsP_of_lookup_dir _ htdirX, fsX.isDirP_of_lookup_dir _ htdirX,
        fsX.isSymlinkP_false_of_lookup_dir _ htdirX, hig2, hpe2,
        fsX.existsP_false_of_lookup_none _ hmdX]
    rw [List.isPrefixOf_iff_prefix.mpr (List.prefix_append _ _)]
    rfl
  have hlnX : lookupName (globalsOf cfg fsX) n = some (cfg.vault_root ++ [n]) :=
    lookupName_globalsOf cfg fsX n hmtX
  have hdiscX : discover_globals cfg fsX = .ok (globalsOf cfg fsX, fsX) := by
    unfold discover_globals
    rw [FS.mkdirp_noop_dir _ _ hrdirX]
  have hensX := ensure_project_vault_noop cfg proj fsX hC hD hE
  -- evaluate the mount
  by_cases hin : is_inside_global_vault cfg fsX proj = true
  · constructor
    · intro e he
      unfold mount_global_into_project at he
      rw [if_pos hin] at he
      injection he with he
      rw [← he]
      simp
    · intro fsY hok
      unfold mount_global_into_project at hok
      rw [if_pos hin] at hok
      exact absurd hok (by simp)
  · have hbody : mount_global_into_project cfg proj n fsX =
        (if (fsX.existsP (proj ++ [cfg.project_vault_dir] ++ [cfg.mount_dir] ++ [n]) ||
             fsX.isSymlinkP (proj ++ [cfg.project_vault_dir] ++ [cfg.mount_dir] ++ [n]))
            = true then
          if (fsX.isSymlinkP (proj ++ [cfg.project_vault_dir] ++ [cfg.mount_dir] ++ [n]) &&
              (fsX.resolveP (proj ++ [cfg.project_vault_dir] ++ [cfg.mount_dir] ++ [n]) ==
               fsX.resolveP (cfg.vault_root ++ [n]))) = true then
            .ok fsX
          else .error (Err.alreadyExists, fsX)
        else .ok (fsX.insertEntry
          (proj ++ [cfg.project_vault_dir] ++ [cfg.mount_dir] ++ [n])
          (Entry.symlink (cfg.vault_root ++ [n])))) := by
      unfold mount_global_into_project
      rw [if_neg hin, hdiscX]
      simp only []
      rw [hlnX]
      simp only []
      rw [hensX]
    constructor
    · intro e he
      rw [hbody] at he
      by_cases hocc : (fsX.existsP (proj ++ [cfg.project_vault_dir] ++ [cfg.mount_dir] ++ [n]) ||
          fsX.isSymlinkP (proj ++ [cfg.project_vault_dir] ++ [cfg.mount_dir] ++ [n])) = true
      · rw [if_pos hocc] at he
        by_cases hgood : (fsX.isSymlinkP (proj ++ [cfg.project_vault_dir] ++ [cfg.mount_dir] ++ [n]) &&
            (fsX.resolveP (proj ++ [cfg.project_vault_dir] ++ [cfg.mount_dir] ++ [n]) ==
             fsX.resolveP (cfg.vault_root ++ [n]))) = true
        · rw [if_pos hgood] at he
          exact absurd he (by simp)
        · rw [if_neg hgood] at he
          injection he with he
          rw [← he]
          simp
      · rw [if_neg hocc] at he
        exact absurd he (by simp)
    · intro fsY hok
      rw [hbody] at hok
      by_cases hocc : (fsX.existsP (proj ++ [cfg.project_vault_dir] ++ [cfg.mount_dir] ++ [n]) ||
          fsX.isSymlinkP (proj ++ [cfg.project_vault_dir] ++ [cfg.mount_dir] ++ [n])) = true
      · rw [if_pos hocc] at hok
        by_cases hgood : (fsX.isSymlinkP (proj ++ [cfg.project_vault_dir] ++ [cfg.mount_dir] ++ [n]) &&
            (fsX.resolveP (proj ++ [cfg.project_vault_dir] ++ [cfg.mount_dir] ++ [n]) ==
             fsX.resolveP (cfg.vault_root ++ [n]))) = true
        · rw [if_pos hgood] at hok
          injection hok with hok
          subst fsY
          exact ⟨hA, hC, hD, hE⟩
        · rw [if_neg hgood] at hok
          exact absurd hok (by simp)
      · rw [if_neg hocc] at hok
        injection hok with hok
        subst fsY
        have hlknone : fsX.lookup (proj ++ [cfg.project_vault_dir] ++ [cfg.mount_dir] ++ [n]) =
            none := by
          cases hx : fsX.lookup (proj ++ [cfg.project_vault_dir] ++ [cfg.mount_dir] ++ [n]) with
          | none => rfl
          | some e =>
            cases e with
            | dir =>
              rw [Bool.or_eq_true] at hocc
              exact absurd (Or.inl (fsX.existsP_of_lookup_dir _ hx)) hocc
            | file c =>
              rw [Bool.or_eq_true] at hocc
              exact absurd (Or.inl (fsX.existsP_of_lookup_file _ c hx)) hocc
            | symlink t =>
              rw [Bool.or_eq_true] at hocc
              exact absurd (Or.inr (by unfold FS.isSymlinkP; rw [hx])) hocc
        have hlinkside : ∃ s, proj ++ [cfg.project_vault_dir] ++ [cfg.mount_dir] ++ [n] =
            proj ++ [cfg.project_vault_dir] ++ s :=
          ⟨[cfg.mount_dir, n], by simp⟩
        refine ⟨?_, ?_, ?_, ?_⟩
        · intro q hq
          have hqform : q = cfg.vault_root ++ q.drop cfg.vault_root.length := by
            rw [List.prefix_iff_eq_append] at hq
            exact hq.symm
          rw [fsX.lookup_insert_ne _ _ q (by
            intro he
            exact rootExt_not_projside cfg.vault_root proj cfg.project_vault_dir h1 h2 _
              (Or.inr hlinkside) (q.drop cfg.vault_root.length) (he ▸ hqform))]
          exact hA q hq
        · rw [fsX.lookup_insert_ne _ _ _ (by
            intro he
            have := congrArg List.length he
            simp at this)]
          exact hC
        · rw [fsX.lookup_insert_ne _ _ _ (by
            intro he
            have := congrArg List.length he
            simp at this)]
          exact hD
        · exact fsX.existsP_insert_none _ _ hlknone _ hE

/-- The auto-mount loop never raises `NotFound` when the project tree and
`vault_root` are disjoint: every configured name still present in the
rediscovered mapping mounts (or no-ops), and a failure can only be
`InvalidLocation` or `AlreadyExists`. -/
theorem autoMountLoop_no_notfound (cfg : Config) (fs₂ : FS) (proj : FPath)
    (h1 : ¬ (cfg.vault_root <+: proj))
    (h2 : ¬ ((proj ++ [cfg.project_vault_dir]) <+: cfg.vault_root))
    (hsf2 : symFreeUnder fs₂ cfg.vault_root)
    (hrdir2 : fs₂.lookup cfg.vault_root = some Entry.dir) :
    ∀ (names : List String) (fsX : FS),
    (∀ q, cfg.vault_root <+: q → fsX.lookup q = fs₂.lookup q) →
    fsX.lookup (proj ++ [cfg.project_vault_dir]) = some Entry.dir →
    fsX.lookup (proj ++ [cfg.project_vault_dir] ++ [cfg.mount_dir]) = some Entry.dir →
    fsX.existsP (proj ++ [cfg.project_vault_dir] ++ ["index.md"]) = true →
    ∀ st, autoMountLoop cfg proj (globalsOf cfg fs₂) names fsX ≠
      .error (Err.notFound, st) := by
  intro names
  induction names with
  | nil =>
    intro fsX _ _ _ _ st h
    simp [autoMountLoop] at h
  | cons n rest ih =>
    intro fsX hA hC hD hE st h
    unfold autoMountLoop at h
    by_cases hg : (lookupName (globalsOf cfg fs₂) n).isSome = true
    · rw [if_pos hg] at h
      have hmt2 : is_mountable_global cfg fs₂ (cfg.vault_root ++ [n]) = true := by
        cases hv : lookupName (globalsOf cfg fs₂) n with
        | none => rw [hv] at hg; exact absurd hg (by simp)
        | some p =>
          exact ((mem_globalsOf cfg fs₂ n p).mp (lookupName_eq_some_imp _ _ _ hv)).2
      obtain ⟨hErrStep, hOkStep⟩ := mount_step_no_notfound cfg fs₂ proj n h1 h2
        hsf2 hrdir2 hmt2 fsX hA hC hD hE
      cases hm : mount_global_into_project cfg proj n fsX with
      | error e =>
        rw [hm] at h
        injection h with h
        exact hErrStep e hm (by rw [h])
      | ok fsY =>
        rw [hm] at h
        obtain ⟨hA', hC', hD', hE'⟩ := hOkStep fsY hm
        exact ih fsY hA' hC' hD' hE' st h
    · rw [if_neg hg] at h
      exact ih fsX hA hC hD hE st h

/-- C10 amended.  When the resolved project root is not nested with
`vault_root` (neither is a prefix of the other through the project vault
directory), no symbolic link occupies the project vault or mount directory
paths, and `vault_root`'s subtree is free of symbolic links, project
initialization never fails with `NotFound`: each auto-mount name is mounted
only if present in the discovered mapping and absent names are silently
skipped.  (In a nesting configuration a loop iteration can invalidate a
discovered global and a duplicated name then raises `NotFound` — see the
counterexample.) -/
theorem cmd_init_no_notfound (cfg : Config) (fs : FS) (path : FPath)
    (h1 : ¬ (cfg.vault_root <+: fs.resolveP path))
    (h2 : ¬ ((fs.resolveP path ++ [cfg.project_vault_dir]) <+: cfg.vault_root))
    (hv : ∀ t, fs.lookup (fs.resolveP path ++ [cfg.project_vault_dir]) ≠
      some (Entry.symlink t))
    (hmnt : ∀ t, fs.lookup (fs.resolveP path ++ [cfg.project_vault_dir] ++
      [cfg.mount_dir]) ≠ some (Entry.symlink t))
    (h5 : symFreeUnder fs cfg.vault_root) :
    ∀ st, cmd_init cfg path fs ≠ .error (Err.notFound, st) := by
  intro st h
  have hrootne : cfg.vault_root ≠ [] := fun hr =>
    h1 (hr ▸ (List.nil_prefix : ([] : FPath) <+: fs.resolveP path))
  unfold cmd_init at h
  by_cases hin : is_inside_global_vault cfg fs (fs.resolveP path) = true
  · rw [if_pos hin] at h
    injection h with h
    injection h with ha _
    exact absurd ha (by simp)
  rw [if_neg hin] at h
  cases hens : ensure_project_vault cfg (fs.resolveP path) fs with
  | error e =>
    rw [hens] at h
    injection h with h
    have he := ensure_project_vault_err cfg _ fs e hens
    rw [h] at he
    exact absurd he (by simp)
  | ok res =>
    obtain ⟨⟨vaultv, mv⟩, fs₁⟩ := res
    rw [hens] at h
    simp only [] at h
    cases hdisc : discover_globals cfg fs₁ with
    | error e =>
      rw [hdisc] at h
      injection h with h
      have he := discover_globals_err cfg fs₁ e hdisc
      rw [h] at he
      exact absurd he (by simp)
    | ok res2 =>
      obtain ⟨gm, fs₂⟩ := res2
      rw [hdisc] at h
      simp only [] at h
      -- dissect the discovery
      unfold discover_globals at hdisc
      cases hmk : fs₁.mkdirp cfg.vault_root with
      | error e => rw [hmk] at hdisc; exact absurd hdisc (by simp)
      | ok fs₂' =>
        rw [hmk] at hdisc
        simp only [Except.ok.injEq, Prod.mk.injEq] at hdisc
        obtain ⟨hgm, hfs₂⟩ := hdisc
        subst hfs₂
        subst hgm
        -- the materialized project vault
        obtain ⟨_, hvB, hmB, hiB⟩ := ensure_project_vault_post cfg (fs.resolveP path)
          fs fs₁ _ hv hmnt hens
        obtain ⟨_, hnosym1⟩ := ensure_project_vault_evolution cfg (fs.resolveP path)
          fs fs₁ _ hens
        have hsf1 : symFreeUnder fs₁ cfg.vault_root := fun q t hq =>
          h5 q t (hnosym1 q t hq)
        have hsf2 : symFreeUnder fs₂' cfg.vault_root := fun q t hq =>
          hsf1 q t (fs₁.mkdirp_no_new_symlink fs₂' _ hmk q t hq)
        have hrdir2 : fs₂'.lookup cfg.vault_root = some Entry.dir := by
          cases hlr : fs₁.lookup cfg.vault_root with
          | some e =>
            cases e with
            | dir =>
              unfold FS.mkdirp at hmk
              rw [hlr] at hmk
              injection hmk with hmk
              rw [← hmk]
              exact hlr
            | file c =>
              unfold FS.mkdirp at hmk
              rw [hlr] at hmk
              exact absurd hmk (by simp)
            | symlink t =>
              exact absurd (List.prefix_refl _) (hsf1 _ t hlr)
          | none =>
            unfold FS.mkdirp at hmk
            rw [hlr] at hmk
            rcases FS.mkdirpAux_postdir _ fs₁ fs₂' hmk cfg.vault_root
              ((mem_prefixesOf _ _).mpr ⟨hrootne, List.prefix_refl _⟩) with hd | ⟨t, hs, _⟩
            · exact hd
            · rcases FS.mkdirpAux_lookup _ fs₁ fs₂' hmk cfg.vault_root with hL | ⟨_, hL, _⟩
              · rw [hL, hlr] at hs; exact absurd hs (by simp)
              · rw [hL] at hs; exact absurd hs (by simp)
        -- the invariant holds at the loop entry
        have hC2 : fs₂'.lookup (fs.resolveP path ++ [cfg.project_vault_dir]) =
            some Entry.dir := by
          rcases fs₁.mkdirp_lookup fs₂' _ hmk
            (fs.resolveP path ++ [cfg.project_vault_dir]) with hL | ⟨_, _, _, hLp⟩
          · rw [hL]; exact hvB
          · exact absurd hLp h2
        have hD2 : fs₂'.lookup (fs.resolveP path ++ [cfg.project_vault_dir] ++
            [cfg.mount_dir]) = some Entry.dir := by
          rcases fs₁.mkdirp_lookup fs₂' _ hmk
            (fs.resolveP path ++ [cfg.project_vault_dir] ++ [cfg.mount_dir])
            with hL | ⟨_, _, _, hLp⟩
          · rw [hL]; exact hmB
          · exact absurd ((List.prefix_append _ _).trans hLp) h2
        have hE2 : fs₂'.existsP (fs.resolveP path ++ [cfg.project_vault_dir] ++
            ["index.md"]) = true :=
          fs₁.mkdirp_exists_preserve fs₂' _ hmk _ hiB
        cases hloop : autoMountLoop cfg (fs.resolveP path) (globalsOf cfg fs₂')
            cfg.auto_mount fs₂' with
        | error e =>
          rw [hloop] at h
          injection h with h
          exact autoMountLoop_no_notfound cfg fs₂' (fs.resolveP path) h1 h2 hsf2 hrdir2
            cfg.auto_mount fs₂' (fun q _ => rfl) hC2 hD2 hE2 st (by rw [hloop, h])
        | ok fs₃ =>
          rw [hloop] at h
          exact absurd h (by simp)

/-- Configuration for the C10 witness: one auto-mounted global `g`. -/
def cfgW10 : Config :=
  { config_version := 1, vault_root := ["v"], project_vault_dir := ".vault",
    mount_dir := "_m", auto_mount := ["g", "absent"], create_desktop_launcher := false,
    desktop_launcher_name := "", editor := "obsidian" }

/-- Filesystem for the C10 witness. -/
def fsW10 : FS := ⟨[(["v"], Entry.dir), (["v", "g"], Entry.dir)]⟩

theorem cmd_init_no_notfound_witness :
    cmd_init cfgW10 ["p"] fsW10 ≠ .error (Err.notFound, fsW10) :=
  cmd_init_no_notfound cfgW10 fsW10 ["p"]
    (by decide) (by decide)
    (by
      intro t h
      rw [(by decide : fsW10.lookup (fsW10.resolveP ["p"] ++
        [cfgW10.project_vault_dir]) = none)] at h
      exact Option.noConfusion h)
    (by
      intro t h
      rw [(by decide : fsW10.lookup (fsW10.resolveP ["p"] ++
        [cfgW10.project_vault_dir] ++ [cfgW10.mount_dir]) = none)] at h
      exact Option.noConfusion h)
    (symFreeUnder_of_entries fsW10 _ (by decide))
    fsW10
